import Mathlib

/-!
# Verification of the url-shortener-boost core

Shallow embedding of the URL-shortener service:

* `UrlService.normalizeUrl` and `UrlService.createShortUrl`
  (src/services/url.service.ts),
* `UrlEntity.isExpired` (src/entities/url.entity.ts),
* `UrlService.getUrlStats` (src/services/url.service.ts),
* `RedirectController.redirect`, `isValidRedirectUrl`, `isPrivateIp`,
  `getRedirectType` (redirect controller),
* `CassandraService.recordHitEvent`, `getTopReferrers`, `getTotalStats`
  (src/services/cassandra.service.ts),
* `AnalyticsConsumerService.isValidHitEvent`, `processHitEvent`
  (analytics consumer).

URL strings are handled through a model of the WHATWG URL class used by the
source (`new URL(...)` in Node).  The model covers the fragment of the URL
grammar this service exercises: `scheme://host[:port]path[?query][#fragment]`.
Known simplifications, each invisible to the properties proved here:
userinfo (`user@host`) is treated as a parse failure, percent-encoding is kept
verbatim instead of being re-encoded, dot-segments in paths are kept verbatim,
the port is kept as its digit string, and `URLSearchParams` serialization keeps
each `name=value` piece verbatim rather than re-encoding it.  Faithfully
modelled: IPv6 hosts keep their brackets in `hostname` (as in the WHATWG host
serializer), schemes are lowercased at parse, query pieces are split on `&`,
and an empty parameter list drops the `?`.

Times are modelled as milliseconds since the epoch (`Int`).  The `nanoid`
random code generator is abstracted as an explicit `freshCode` argument, and
the SHA-256 visitor hash as the injective `(ip, userAgent)` pair.
-/

/-! ## JS-style character and list helpers -/

abbrev Chars := List Char

/-- `a-z` (97-122) or `A-Z` (65-90). -/
def isAsciiLetterCh (c : Char) : Bool :=
  (97 ≤ c.toNat && c.toNat ≤ 122) || (65 ≤ c.toNat && c.toNat ≤ 90)

/-- `0-9` (48-57). -/
def isDigitCh (c : Char) : Bool :=
  48 ≤ c.toNat && c.toNat ≤ 57

/-- `0-9`, `a-f` (97-102) or `A-F` (65-70). -/
def isHexDigitCh (c : Char) : Bool :=
  isDigitCh c || (97 ≤ c.toNat && c.toNat ≤ 102) || (65 ≤ c.toNat && c.toNat ≤ 70)

/-- Characters allowed in a URL scheme after the first letter: letters,
digits, `+` (43), `-` (45) and `.` (46). -/
def isSchemeCh (c : Char) : Bool :=
  isAsciiLetterCh c || isDigitCh c || c.toNat = 43 || c.toNat = 45 || c.toNat = 46

/-- Forbidden host code points of the WHATWG URL standard (the subset that can
still occur after the authority has been cut at `/`, `?` and `#`): space, `@`
(64), `[` (91), `]` (93), backslash (92), `%` (37), `<` (60), `>` (62), `^`
(94), `|` (124), TAB, LF, CR. -/
def isForbiddenHostCh (c : Char) : Bool :=
  c.toNat = 32 || c.toNat = 64 || c.toNat = 91 || c.toNat = 93 || c.toNat = 92 ||
  c.toNat = 37 || c.toNat = 60 || c.toNat = 62 || c.toNat = 94 || c.toNat = 124 ||
  c.toNat = 9 || c.toNat = 10 || c.toNat = 13

/-- Split a list at the first occurrence of `sep`: the prefix before it and,
when the separator occurs, the remainder after it. -/
def breakAt (sep : Char) : Chars → Chars × Option Chars
  | [] => ([], none)
  | c :: cs =>
    if c = sep then ([], some cs)
    else
      let r := breakAt sep cs
      (c :: r.1, r.2)

/-- Numeric value of a digit string, as JS `Number` on an all-digit string. -/
def digitsToNat (ds : Chars) : Nat :=
  ds.foldl (fun acc c => acc * 10 + (c.toNat - 48)) 0

def s2c (s : String) : Chars := s.data

/-! ## Model of the WHATWG `URL` class used by the source -/

structure ParsedUrl where
  scheme : Chars
  host : Chars
  port : Option Chars
  path : Chars
  query : Option Chars
  fragment : Option Chars
deriving DecidableEq, Repr

/-- Split an authority into hostname and optional port.  A bracketed IPv6
authority keeps its brackets in the hostname, exactly as the WHATWG host
serializer (and hence Node's `url.hostname`) does. -/
def parseHostPort (authority : Chars) : Option (Chars × Option Chars) :=
  match authority with
  | '[' :: rest =>
    match breakAt ']' rest with
    | (inside, some after) =>
      if inside ≠ [] ∧ inside.all (fun c => isHexDigitCh c || c.toNat = 58 || c.toNat = 46) then
        match after with
        | [] => some ('[' :: inside ++ [']'], none)
        | ':' :: p =>
          if p ≠ [] ∧ p.all isDigitCh then some ('[' :: inside ++ [']'], some p)
          else if p = [] then some ('[' :: inside ++ [']'], none)
          else none
        | _ => none
      else none
    | (_, none) => none
  | _ =>
    let hostRaw := authority.takeWhile (fun c => c ≠ ':')
    let after := authority.drop hostRaw.length
    if hostRaw = [] ∨ hostRaw.any isForbiddenHostCh then none
    else
      match after with
      | [] => some (hostRaw, none)
      | ':' :: p =>
        if p = [] then some (hostRaw, none)
        else if p.all isDigitCh then some (hostRaw, some p)
        else none
      | _ => none

/-- Model of `new URL(u)` for the grammar fragment this service exercises;
`none` models the constructor throwing. -/
def parseUrl (u : Chars) : Option ParsedUrl :=
  let f := breakAt '#' u
  let q := breakAt '?' f.1
  let schemeRaw := q.1.takeWhile (fun c => c ≠ ':')
  if schemeRaw.length = q.1.length then none
  else
    match schemeRaw with
    | [] => none
    | c0 :: _ =>
      if isAsciiLetterCh c0 ∧ schemeRaw.all isSchemeCh then
        match q.1.drop (schemeRaw.length + 1) with
        | '/' :: '/' :: rest2 =>
          let authority := rest2.takeWhile (fun c => c ≠ '/')
          let path0 := rest2.drop authority.length
          match parseHostPort authority with
          | some (host, port) =>
            some { scheme := schemeRaw.map Char.toLower
                   host := host
                   port := port
                   path := if path0 = [] then ['/'] else path0
                   query := q.2
                   fragment := f.2 }
          | none => none
        | _ => none
      else none

/-- The serialized port piece: `:digits` or empty. -/
def portPartOf (port : Option Chars) : Chars :=
  match port with
  | none => []
  | some d => ':' :: d

/-- The serialized query piece: `?query` or empty. -/
def queryPartOf (query : Option Chars) : Chars :=
  match query with
  | none => []
  | some q => '?' :: q

/-- The serialized fragment piece: `#fragment` or empty. -/
def fragPartOf (fragment : Option Chars) : Chars :=
  match fragment with
  | none => []
  | some f => '#' :: f

/-- Model of `url.toString()` (the WHATWG URL serializer). -/
def serializeUrl (p : ParsedUrl) : Chars :=
  p.scheme ++ ':' :: '/' :: '/' :: p.host ++ portPartOf p.port ++
  p.path ++ queryPartOf p.query ++ fragPartOf p.fragment

/-! ## `UrlService.normalizeUrl` (src/services/url.service.ts lines 277-312) -/

/-- The tracking-parameter names deleted by the normalizer. -/
def trackingParams : List Chars :=
  [s2c "utm_source", s2c "utm_medium", s2c "utm_campaign", s2c "utm_term",
   s2c "utm_content", s2c "gclid", s2c "fbclid", s2c "msclkid", s2c "dclid",
   s2c "source", s2c "medium", s2c "campaign"]

/-- Name of one `name=value` query piece (the part before the first `=`). -/
def pieceName (piece : Chars) : Chars := piece.takeWhile (fun c => c ≠ '=')

/-- Effect of the `searchParams.delete` loop on the raw query: split on `&`,
drop the pieces whose name is a tracking parameter, re-join; when no piece
remains the `?` disappears (the URLSearchParams update steps set the query to
null when the list becomes empty). -/
def deleteTrackingQuery (q : Chars) : Option Chars :=
  let kept := (q.splitOn '&').filter (fun pc => !(trackingParams.contains (pieceName pc)))
  if kept = [] then none else some (List.intercalate ['&'] kept)

/-- The four normalization steps of `normalizeUrl`, in source order. -/
def normalizeParsed (p : ParsedUrl) : ParsedUrl :=
  let p1 : ParsedUrl :=
    { p with query := match p.query with
        | none => none
        | some q => deleteTrackingQuery q }
  let p2 : ParsedUrl :=
    { p1 with port := match p1.port with
        | none => none
        | some d =>
          if (p1.scheme = s2c "http" ∧ d = s2c "80") ∨
             (p1.scheme = s2c "https" ∧ d = s2c "443") then none else some d }
  let p3 : ParsedUrl :=
    { p2 with path :=
        if p2.path.getLast? = some '/' ∧ p2.path.length > 1 then p2.path.dropLast
        else p2.path }
  { p3 with host := p3.host.map Char.toLower }

def normalizeChars (u : Chars) : Chars :=
  match parseUrl u with
  | none => u
  | some p => serializeUrl (normalizeParsed p)

/-- `UrlService.normalizeUrl`: canonical form used for deduplication; when URL
parsing fails the original string is returned unchanged. -/
def normalizeUrl (s : String) : String := String.mk (normalizeChars s.data)

/-- The inputs the amended idempotence claim excludes: URLs whose parsed path
still ends in a slash after one trailing-slash strip, i.e. the path ends in
`//` and is longer than `//` itself. -/
def collapsibleDoubleSlash (u : String) : Bool :=
  match parseUrl u.data with
  | some p => (s2c "//").isSuffixOf p.path && decide (p.path.length > 2)
  | none => false

/-! The canonical shape of a parsed URL: what `parseUrl` guarantees about its
output, stated strongly enough that serializing and reparsing is the
identity. -/

def schemeHeadOk : Chars → Bool
  | [] => false
  | c :: _ => isAsciiLetterCh c

/-- Characters that may appear in a plain (non-bracketed) hostname: not a
forbidden host code point and none of `:` (58), `/` (47), `?` (63), `#` (35). -/
def isPlainHostCh (c : Char) : Bool :=
  !(isForbiddenHostCh c) && !(c.toNat = 58) && !(c.toNat = 47) &&
  !(c.toNat = 63) && !(c.toNat = 35)

/-- Characters of a bracketed IPv6 host between the brackets. -/
def isInsideCh (c : Char) : Bool :=
  isHexDigitCh c || c.toNat = 58 || c.toNat = 46

/-- A canonical hostname: bracketed IPv6 shape or a nonempty plain host. -/
def hostCanon (host : Chars) : Prop :=
  (∃ inside, host = '[' :: inside ++ [']'] ∧ inside ≠ [] ∧
    inside.all (fun c => isHexDigitCh c || c.toNat = 58 || c.toNat = 46) = true) ∨
  (host ≠ [] ∧ host.all isPlainHostCh = true)

/-- A canonical port: absent, or a nonempty digit string. -/
def portCanon (port : Option Chars) : Prop :=
  match port with
  | none => True
  | some d => d ≠ [] ∧ d.all isDigitCh = true

/-- A canonical query: absent, or free of `#`. -/
def queryCanon (query : Option Chars) : Prop :=
  match query with
  | none => True
  | some q => q.all (fun c => !(c.toNat = 35)) = true

structure UrlCanon (p : ParsedUrl) : Prop where
  schemeHead : schemeHeadOk p.scheme = true
  schemeAll : p.scheme.all isSchemeCh = true
  schemeLower : p.scheme.map Char.toLower = p.scheme
  host : hostCanon p.host
  port : portCanon p.port
  path : (∃ rest, p.path = '/' :: rest) ∧
         p.path.all (fun c => !(c.toNat = 63) && !(c.toNat = 35)) = true
  query : queryCanon p.query

/-! ## `UrlEntity` (src/entities/url.entity.ts) -/

structure UrlRecord where
  code : String
  original : String
  normalized : String
  hitCount : Int
  customAlias : Option String
  expiresAt : Option Int
  createdAt : Int
  creatorIp : Option String
  creatorUserAgent : Option String
deriving DecidableEq, Repr

/-- `UrlEntity.isExpired`: `this.expiresAt ? new Date() > this.expiresAt : false`.
Note the strict comparison: at `now = expiresAt` the record is NOT expired. -/
def UrlRecord.isExpired (r : UrlRecord) (now : Int) : Bool :=
  match r.expiresAt with
  | some e => now > e
  | none => false

/-- `UrlEntity.getShortUrl`. -/
def UrlRecord.getShortUrl (r : UrlRecord) (baseUrl : String) : String :=
  baseUrl ++ "/" ++ r.code

/-! ## `UrlService.getUrlStats` (src/services/url.service.ts lines 461-481) -/

structure UrlStats where
  total : Nat
  active : Nat
  expired : Nat
deriving DecidableEq, Repr

/-- `UrlService.getUrlStats` as the source computes it.  The second count uses
the where-clause `expiresAt: Not(IsNull()) && Not(undefined)`, which filters on
`expiresAt` being non-null only — no comparison against the current time — so
`expired` is the number of records carrying any `expiresAt` value (spec §9
records this as the source's behavior). -/
def getUrlStats (store : List UrlRecord) : UrlStats :=
  let total := store.length
  let expired := (store.filter (fun r => r.expiresAt.isSome)).length
  { total := total, active := total - expired, expired := expired }

/-- Modelled from the spec: the specified stats operation, in which `expired`
counts exactly the records with `expiresAt ≠ null ∧ expiresAt ≤ now` and
`active = total - expired`. -/
def getUrlStatsSpec (store : List UrlRecord) (now : Int) : UrlStats :=
  let total := store.length
  let expired := (store.filter (fun r =>
    match r.expiresAt with
    | some e => e ≤ now
    | none => false)).length
  { total := total, active := total - expired, expired := expired }

/-! ## `UrlService.createShortUrl` (src/services/url.service.ts lines 43-120)

The repository store is a list of records; `findOne({where: {normalized}})`
and `findOne({where: {code}})` are first-match lookups.  `nanoid` is abstracted
as the explicit `freshCode` argument.  URL scanning is disabled
(`ENABLE_URL_SCANNING` defaults to false). -/

inductive CreateErr where
  | aliasInvalid
  | aliasTaken
deriving DecidableEq, Repr

structure CreateUrlDto where
  url : String
  customAlias : Option String
  expiresAt : Option Int
  clientIp : Option String
  userAgent : Option String
deriving DecidableEq, Repr

structure CreateResult where
  code : String
  shortUrl : String
  original : String
  createdAt : Int
  expiresAt : Option Int
  isNew : Bool
deriving DecidableEq, Repr

deriving instance DecidableEq for Except

def findByNormalizedUrl (store : List UrlRecord) (n : String) : Option UrlRecord :=
  store.find? (fun r => r.normalized = n)

def findByCodeInStore (store : List UrlRecord) (code : String) : Option UrlRecord :=
  store.find? (fun r => r.code = code)

/-- `UrlService.validateCustomAlias` (lines 337-352): length in [3, 50]
(the configured defaults), then uniqueness against the store. -/
def validateCustomAlias (store : List UrlRecord) (aliasStr : String) : Except CreateErr String :=
  if aliasStr.length < 3 ∨ aliasStr.length > 50 then .error .aliasInvalid
  else if (findByCodeInStore store aliasStr).isSome then .error .aliasTaken
  else .ok aliasStr

/-- `UrlService.createShortUrl`: returns the created/found result and the
store after the call. -/
def createShortUrl (store : List UrlRecord) (dto : CreateUrlDto) (now : Int)
    (freshCode : String) (baseUrl : String) :
    Except CreateErr (CreateResult × List UrlRecord) :=
  let normalized := normalizeUrl dto.url
  let existingBranch :
      Option (CreateResult × List UrlRecord) :=
    match findByNormalizedUrl store normalized with
    | some ex =>
      if ex.isExpired now = false then
        some ({ code := ex.code, shortUrl := ex.getShortUrl baseUrl,
                original := ex.original, createdAt := ex.createdAt,
                expiresAt := ex.expiresAt, isNew := false }, store)
      else none
    | none => none
  match existingBranch with
  | some res => .ok res
  | none =>
    match (match dto.customAlias with
           | some a => validateCustomAlias store a
           | none => .ok freshCode) with
    | .error e => .error e
    | .ok code =>
      let rec0 : UrlRecord :=
        { code := code, original := dto.url, normalized := normalized,
          hitCount := 0, customAlias := dto.customAlias,
          expiresAt := dto.expiresAt, createdAt := now,
          creatorIp := dto.clientIp, creatorUserAgent := dto.userAgent }
      .ok ({ code := code, shortUrl := rec0.getShortUrl baseUrl,
             original := dto.url, createdAt := now,
             expiresAt := dto.expiresAt, isNew := true }, store ++ [rec0])

/-! ## `RedirectController` (redirect controller source) -/

inductive RedirectResponse where
  | badRequest (msg : String)
  | notFound
  | gone
  | redirect (status : Nat) (location : String)
deriving DecidableEq, Repr

/-- The `^[a-zA-Z0-9_-]+$` code-format check (line 76). -/
def isCodeFormatValid (code : String) : Bool :=
  code ≠ "" && code.data.all (fun c => isAsciiLetterCh c || isDigitCh c || c = '_' || c = '-')

/-- `RedirectController.isPrivateIp` (lines 327-345): the
`^(\d{1,3})\.(\d{1,3})\.(\d{1,3})\.(\d{1,3})$` regex followed by the range
checks on the numeric groups. -/
def isPrivateIp (hostname : Chars) : Bool :=
  match hostname.splitOn '.' with
  | [a, b, c, d] =>
    if [a, b, c, d].all (fun g => g ≠ [] && g.length ≤ 3 && g.all isDigitCh) then
      let av := digitsToNat a
      let bv := digitsToNat b
      (av = 10) || (av = 172 && 16 ≤ bv && bv ≤ 31) || (av = 192 && bv = 168) ||
      (av = 169 && bv = 254) || (av = 127)
    else false
  | _ => false

/-- `RedirectController.isValidRedirectUrl` (lines 290-322). -/
def isValidRedirectUrl (url : String) : Bool :=
  match parseUrl url.data with
  | none => false
  | some p =>
    if !(p.scheme = s2c "http" || p.scheme = s2c "https") then false
    else
      let hostname := p.host.map Char.toLower
      if hostname = s2c "localhost" || hostname = s2c "127.0.0.1" ||
         hostname = s2c "::1" then false
      else if isPrivateIp hostname then false
      else if [s2c ".tk", s2c ".ml", s2c ".ga", s2c ".cf"].any
                (fun tld => tld.isSuffixOf hostname) then false
      else true

/-- The `permanentDomains` allowlist (lines 355-363). -/
def permanentDomains : List Chars :=
  [s2c "youtube.com", s2c "youtu.be", s2c "github.com", s2c "gitlab.com",
   s2c "twitter.com", s2c "x.com", s2c "facebook.com", s2c "instagram.com",
   s2c "linkedin.com", s2c "medium.com", s2c "stackoverflow.com"]

/-- `RedirectController.getRedirectType` (lines 350-376): `true` models
`'permanent'`. -/
def getRedirectType (url : String) : Bool :=
  match parseUrl url.data with
  | none => false
  | some p =>
    let h0 := p.host.map Char.toLower
    let h := if (s2c "www.").isPrefixOf h0 then h0.drop 4 else h0
    permanentDomains.contains h

/-- The response of `RedirectController.redirect` (lines 65-176) as a function
of the looked-up record, the requested code and the current time.  Thrown
`BadRequestException`/`NotFoundException` are the corresponding 400/404
responses after Nest's exception filter. -/
def redirectResolve (lookup : Option UrlRecord) (code : String) (now : Int) :
    RedirectResponse :=
  if isCodeFormatValid code = false then .badRequest "Invalid URL code format"
  else
    match lookup with
    | none => .notFound
    | some url =>
      if url.isExpired now then .gone
      else if isValidRedirectUrl url.original = false then
        .badRequest "Invalid redirect URL"
      else
        .redirect (if getRedirectType url.original then 301 else 302) url.original

/-! ## The redirect side-effect pipeline (controller lines 120-129, 242-285;
src/services/url.service.ts lines 256-272; src/services/kafka.service.ts
lines 130-163)

Failures of the accounting and analytics side effects are modelled as an
exception monad with oracle flags saying which dependency throws; the
`try/catch` blocks of the source become `swallow`. -/

inductive JsError where
  | err (msg : String)
deriving DecidableEq, Repr

abbrev Fallible (α : Type) := Except JsError α

/-- A `try { act } catch (e) { log }` block around a unit-valued action. -/
def swallow (act : Fallible Unit) : Fallible Unit :=
  match act with
  | .ok _ => .ok ()
  | .error _ => .ok ()

/-- `UrlService.incrementHitCount` (lines 256-272): the repository increment
and cache refresh are wrapped in a try/catch that logs and does not rethrow. -/
def incrementHitCountM (dbThrows : Bool) : Fallible Unit :=
  swallow (if dbThrows then .error (.err "db") else .ok ())

/-- `KafkaService.publishHitEvent` (lines 132-163): `producer.send` failures
are caught and logged, not rethrown. -/
def publishHitEventM (sendThrows : Bool) : Fallible Unit :=
  swallow (if sendThrows then .error (.err "kafka") else .ok ())

/-- `RedirectController.recordHitEvent` (lines 242-285): user-agent parsing,
geo lookup and the Kafka publish run inside a try/catch that logs and does not
rethrow. -/
def recordHitEventM (enrichThrows publishThrows : Bool) : Fallible Unit :=
  swallow (do
    if enrichThrows then Except.error (.err "enrich") else pure ()
    publishHitEventM publishThrows)

/-- `RedirectController.redirect` with its step-6 side effects: the hit-count
increment is fired with `.catch(...)` attached and the hit-event recording is
awaited; the chosen response is produced afterwards. -/
def redirectPipeline (lookup : Option UrlRecord) (code : String) (now : Int)
    (incThrows enrichThrows publishThrows : Bool) :
    Fallible RedirectResponse :=
  if isCodeFormatValid code = false then .ok (.badRequest "Invalid URL code format")
  else
    match lookup with
    | none => .ok .notFound
    | some url =>
      if url.isExpired now then .ok .gone
      else if isValidRedirectUrl url.original = false then
        .ok (.badRequest "Invalid redirect URL")
      else do
        swallow (incrementHitCountM incThrows)
        recordHitEventM enrichThrows publishThrows
        pure (.redirect (if getRedirectType url.original then 301 else 302) url.original)

/-! ## `CassandraService` (src/services/cassandra.service.ts)

The wide-column tables are lists of rows; a counter `UPDATE` upserts its row.
The SHA-256 visitor hash over `"ip:userAgent"` is abstracted as the pair
`(ip, userAgent)`.  Timestamps are milliseconds since the epoch and the
date/hour/minute parts are taken in UTC (the source uses the process-local
timezone of `Date`; the choice of zone is irrelevant to the claims). -/

structure HitEvent where
  code : String
  timestamp : Int
  ip : String
  userAgent : String
  referrer : Option String
  country : Option String
  city : Option String
  deviceType : Option String
  browser : Option String
  os : Option String
deriving DecidableEq, Repr

def tsDate (t : Int) : Int := t / 86400000

def tsHour (t : Int) : Int := (t % 86400000) / 3600000

def tsMinute (t : Int) : Int := (t % 3600000) / 60000

structure HourRow where
  code : String
  date : Int
  hour : Int
  count : Nat
  uniqueVisitors : Nat
deriving DecidableEq, Repr

structure MinuteRow where
  code : String
  date : Int
  hour : Int
  minute : Int
  count : Nat
  uniqueVisitors : Nat
deriving DecidableEq, Repr

structure ReferrerRow where
  code : String
  referrer : String
  count : Nat
deriving DecidableEq, Repr

structure GeoRow where
  code : String
  country : String
  count : Nat
deriving DecidableEq, Repr

structure DeviceRow where
  code : String
  deviceType : String
  browser : String
  os : String
  count : Nat
deriving DecidableEq, Repr

structure AccessRow where
  code : String
  firstAccessed : Int
  lastAccessed : Int
deriving DecidableEq, Repr

structure VisitorRow where
  code : String
  date : Int
  visitorHash : String × String
deriving DecidableEq, Repr

structure AnalyticsState where
  hitsByHour : List HourRow
  hitsByMinute : List MinuteRow
  referrers : List ReferrerRow
  geographic : List GeoRow
  devices : List DeviceRow
  accessTimes : List AccessRow
  uniqueVisitors : List VisitorRow
deriving DecidableEq, Repr

def emptyAnalytics : AnalyticsState :=
  { hitsByHour := [], hitsByMinute := [], referrers := [], geographic := [],
    devices := [], accessTimes := [], uniqueVisitors := [] }

/-- `UPDATE hits_by_hour SET count = count + 1, unique_visitors =
unique_visitors + 1 WHERE code = ? AND date = ? AND hour = ?` (counter
columns upsert their row). -/
def bumpHour (rows : List HourRow) (code : String) (date hour : Int) : List HourRow :=
  match rows with
  | [] => [{ code := code, date := date, hour := hour, count := 1, uniqueVisitors := 1 }]
  | r :: rs =>
    if r.code = code ∧ r.date = date ∧ r.hour = hour then
      { r with count := r.count + 1, uniqueVisitors := r.uniqueVisitors + 1 } :: rs
    else r :: bumpHour rs code date hour

/-- The corresponding upsert on `hits_by_minute`. -/
def bumpMinute (rows : List MinuteRow) (code : String) (date hour minute : Int) :
    List MinuteRow :=
  match rows with
  | [] => [{ code := code, date := date, hour := hour, minute := minute,
             count := 1, uniqueVisitors := 1 }]
  | r :: rs =>
    if r.code = code ∧ r.date = date ∧ r.hour = hour ∧ r.minute = minute then
      { r with count := r.count + 1, uniqueVisitors := r.uniqueVisitors + 1 } :: rs
    else r :: bumpMinute rs code date hour minute

/-- `UPDATE referrers SET count = count + 1 WHERE code = ? AND referrer = ?`. -/
def bumpReferrer (rows : List ReferrerRow) (code referrer : String) : List ReferrerRow :=
  match rows with
  | [] => [{ code := code, referrer := referrer, count := 1 }]
  | r :: rs =>
    if r.code = code ∧ r.referrer = referrer then
      { r with count := r.count + 1 } :: rs
    else r :: bumpReferrer rs code referrer

/-- `UPDATE geographic SET count = count + 1 WHERE code = ? AND country = ?`. -/
def bumpGeo (rows : List GeoRow) (code country : String) : List GeoRow :=
  match rows with
  | [] => [{ code := code, country := country, count := 1 }]
  | r :: rs =>
    if r.code = code ∧ r.country = country then
      { r with count := r.count + 1 } :: rs
    else r :: bumpGeo rs code country

/-- `UPDATE devices SET count = count + 1 WHERE code = ? AND device_type = ?
AND browser = ? AND os = ?`. -/
def bumpDevice (rows : List DeviceRow) (code dt br os : String) : List DeviceRow :=
  match rows with
  | [] => [{ code := code, deviceType := dt, browser := br, os := os, count := 1 }]
  | r :: rs =>
    if r.code = code ∧ r.deviceType = dt ∧ r.browser = br ∧ r.os = os then
      { r with count := r.count + 1 } :: rs
    else r :: bumpDevice rs code dt br os

/-- `UPDATE access_times SET first_accessed = ?, last_accessed = ? WHERE
code = ?`, with both parameters bound to the event timestamp: the upsert
overwrites both columns with `t` unconditionally. -/
def setAccessTimes (rows : List AccessRow) (code : String) (t : Int) : List AccessRow :=
  match rows with
  | [] => [{ code := code, firstAccessed := t, lastAccessed := t }]
  | r :: rs =>
    if r.code = code then { r with firstAccessed := t, lastAccessed := t } :: rs
    else r :: setAccessTimes rs code t

/-- `INSERT INTO unique_visitors (code, date, visitor_hash) VALUES (?, ?, ?)
IF NOT EXISTS`: an idempotent set insert. -/
def insertVisitor (rows : List VisitorRow) (code : String) (date : Int)
    (h : String × String) : List VisitorRow :=
  if rows.any (fun r => r.code = code ∧ r.date = date ∧ r.visitorHash = h) then rows
  else rows ++ [{ code := code, date := date, visitorHash := h }]

/-- `CassandraService.recordHitEvent` (lines 328-433): the batched counter
updates, including the conditional referrer/geographic/device updates. -/
def recordHitEvent (s : AnalyticsState) (ev : HitEvent) : AnalyticsState :=
  let date := tsDate ev.timestamp
  let hour := tsHour ev.timestamp
  let minute := tsMinute ev.timestamp
  let visitorHash := (ev.ip, ev.userAgent)
  { hitsByHour := bumpHour s.hitsByHour ev.code date hour
    hitsByMinute := bumpMinute s.hitsByMinute ev.code date hour minute
    accessTimes := setAccessTimes s.accessTimes ev.code ev.timestamp
    uniqueVisitors := insertVisitor s.uniqueVisitors ev.code date visitorHash
    referrers :=
      match ev.referrer with
      | some r => if r ≠ "direct" then bumpReferrer s.referrers ev.code r else s.referrers
      | none => s.referrers
    geographic :=
      match ev.country with
      | some c => bumpGeo s.geographic ev.code c
      | none => s.geographic
    devices :=
      if ev.deviceType.isSome ∨ ev.browser.isSome ∨ ev.os.isSome then
        bumpDevice s.devices ev.code (ev.deviceType.getD "unknown")
          (ev.browser.getD "unknown") (ev.os.getD "unknown")
      else s.devices }

def applyAllHits (es : List HitEvent) : AnalyticsState :=
  es.foldl recordHitEvent emptyAnalytics

/-! ## Analytics queries (src/services/cassandra.service.ts lines 527-545,
604-645) -/

structure ReferrerStat where
  referrer : String
  hits : Nat
  percentage : ℚ
deriving DecidableEq, Repr

/-- Source lines 539-544: `totalHits` reduced over the given (already sliced)
list of `(referrer, hits)` pairs, then `percentage = (hits / totalHits) * 100`
attached to each entry (`0` when the reduced total is zero). -/
def attachReferrerPercentages (top : List (String × Nat)) : List ReferrerStat :=
  let totalHits : Nat := top.foldl (fun acc r => acc + r.2) 0
  top.map (fun r =>
    { referrer := r.1, hits := r.2,
      percentage := if 0 < totalHits then ((r.2 : ℚ) / totalHits) * 100 else 0 })

/-- `CassandraService.getTopReferrers` (lines 527-545): select the rows for
`code` (the model keeps them in the table's row order), sort descending by
hits with the stable JS `sort((a, b) => b.hits - a.hits)` (a stable sort is
modelled by insertion sort, which computes the same list), slice the top
`limit`, then attach percentages — the denominator is reduced over the
SLICED list. -/
def getTopReferrers (s : AnalyticsState) (code : String) (limit : Nat) :
    List ReferrerStat :=
  let rows := (s.referrers.filter (fun r => r.code = code)).map
    (fun r => (r.referrer, r.count))
  let sorted := List.insertionSort (fun a b => b.2 ≤ a.2) rows
  attachReferrerPercentages (sorted.take limit)

/-- Modelled from the spec: the same top-referrers query, but with the
percentage denominator ranging over ALL referrer rows stored for the code,
not only the returned top `limit`. -/
def getTopReferrersSpec (s : AnalyticsState) (code : String) (limit : Nat) :
    List ReferrerStat :=
  let rows := (s.referrers.filter (fun r => r.code = code)).map
    (fun r => (r.referrer, r.count))
  let sorted := List.insertionSort (fun a b => b.2 ≤ a.2) rows
  let top := sorted.take limit
  let totalHits : Nat := sorted.foldl (fun acc r => acc + r.2) 0
  top.map (fun r =>
    { referrer := r.1, hits := r.2,
      percentage := if 0 < totalHits then ((r.2 : ℚ) / totalHits) * 100 else 0 })

structure TotalStats where
  totalHits : Nat
  uniqueVisitors : Nat
deriving DecidableEq, Repr

/-- `CassandraService.getTotalStats` (lines 625-645): `SELECT SUM(count),
SUM(unique_visitors) FROM hits_by_hour WHERE code = ?` with an optional date
range.  Only the `hits_by_hour` table is read; the `unique_visitors` set table
plays no part. -/
def getTotalStats (s : AnalyticsState) (code : String)
    (range : Option (Int × Int)) : TotalStats :=
  let rows := s.hitsByHour.filter (fun r =>
    decide (r.code = code) &&
    match range with
    | some (lo, hi) => decide (lo ≤ r.date) && decide (r.date ≤ hi)
    | none => true)
  { totalHits := rows.foldl (fun acc r => acc + r.count) 0
    uniqueVisitors := rows.foldl (fun acc r => acc + r.uniqueVisitors) 0 }

/-- `CassandraService.getAccessTimes` (lines 607-620). -/
def getAccessTimes (s : AnalyticsState) (code : String) : Option (Int × Int) :=
  (s.accessTimes.find? (fun r => r.code = code)).map
    (fun r => (r.firstAccessed, r.lastAccessed))

/-! ## `AnalyticsConsumerService` (analytics consumer source, lines 166-234)

Decoded events may be missing string fields at runtime; a missing field is
`none` and JS truthiness makes the empty string count as absent too.  The
`timestamp` field is different: `KafkaService.parseHitEvent` always sets it to
`new Date(data.timestamp)`, so it is always a `Date` object — for a missing or
unparseable JSON timestamp it is an *Invalid Date*, whose `getTime()` is
`NaN`.  The field is therefore modelled as the `getTime()` value: `some t` for
a genuine date with millisecond value `t`, `none` for an Invalid Date. -/

structure ConsumerEvent where
  code : Option String
  timestamp : Option Int
  ip : Option String
  userAgent : Option String
  referrer : Option String
  country : Option String
  city : Option String
  deviceType : Option String
  browser : Option String
  os : Option String
deriving DecidableEq, Repr

def jsTruthyStr (o : Option String) : Bool :=
  match o with
  | some s => s ≠ ""
  | none => false

/-- JS truthiness of the decoded `timestamp`: a `Date` object is truthy even
when it is an Invalid Date, so this test never fails. -/
def jsDateTruthy : Option Int → Bool := fun _ => true

/-- JS `<` applied to a `getTime()` result (`none` models `NaN`): every
comparison with `NaN` is false. -/
def jsNumLt (a : Option Int) (b : Int) : Bool :=
  match a with
  | some x => decide (x < b)
  | none => false

/-- JS `>` applied to a `getTime()` result (`none` models `NaN`): every
comparison with `NaN` is false. -/
def jsNumGt (a : Option Int) (b : Int) : Bool :=
  match a with
  | some x => decide (x > b)
  | none => false

/-- The consumer's IP regex
`^(?:[0-9]{1,3}\.){3}[0-9]{1,3}$|^([0-9a-fA-F]{1,4}:){7}[0-9a-fA-F]{1,4}$`. -/
def ipRegexAccepts (s : String) : Bool :=
  (match s.data.splitOn '.' with
   | [a, b, c, d] => [a, b, c, d].all (fun g => g ≠ [] && g.length ≤ 3 && g.all isDigitCh)
   | _ => false) ||
  (let gs := s.data.splitOn ':'
   gs.length = 8 && gs.all (fun g => g ≠ [] && g.length ≤ 4 && g.all isHexDigitCh))

/-- `AnalyticsConsumerService.isValidHitEvent` (lines 212-234), transcribed
test by test.  `!hitEvent.timestamp` never rejects, because the decoded field
is always a `Date` object (Invalid Date included); and for an Invalid Date
`eventTime` is `NaN`, so both `eventTime < now - maxAge` and
`eventTime > now + maxFuture` are false and the tolerance-window test
passes. -/
def isValidHitEvent (ev : ConsumerEvent) (now : Int) : Bool :=
  if !(jsTruthyStr ev.code && jsDateTruthy ev.timestamp && jsTruthyStr ev.ip &&
       jsTruthyStr ev.userAgent) then false
  else if jsNumLt ev.timestamp (now - 86400000) ||
          jsNumGt ev.timestamp (now + 300000) then false
  else if !(ipRegexAccepts (ev.ip.getD "")) then false
  else true

/-- The DTO handed to `CassandraService.recordHitEvent` for an event whose
`Date` is genuine with `getTime()` value `t`. -/
def consumerEventToHit (ev : ConsumerEvent) (t : Int) : HitEvent :=
  { code := ev.code.getD "", timestamp := t,
    ip := ev.ip.getD "", userAgent := ev.userAgent.getD "",
    referrer := ev.referrer, country := ev.country, city := ev.city,
    deviceType := ev.deviceType, browser := ev.browser, os := ev.os }

/-- `AnalyticsConsumerService.processHitEvent` (lines 166-207): validate, then
store the analytics data; an invalid event is logged and skipped, leaving the
store unchanged.  A valid event carrying an Invalid Date is *not* skipped: it
is passed to `CassandraService.recordHitEvent`, whose date arithmetic then
produces `NaN`-valued query parameters — what the database driver does with
those is not determined by this repository's code, so that resulting state is
left unspecified (`none`). -/
def processHitEvent (s : AnalyticsState) (ev : ConsumerEvent) (now : Int) :
    Option AnalyticsState :=
  if isValidHitEvent ev now then
    match ev.timestamp with
    | some t => some (recordHitEvent s (consumerEventToHit ev t))
    | none => none
  else some s

/-! ## Claims -/

/-- A fixed benign record used by several concrete theorems. -/
def sampleRecord (orig : String) (exp : Option Int) : UrlRecord :=
  { code := "abc", original := orig, normalized := orig, hitCount := 0,
    customAlias := none, expiresAt := exp, createdAt := 0,
    creatorIp := none, creatorUserAgent := none }

/-- C1: the stats operation behind GET /api/urls/stats is specified to count
as `expired` exactly the records with `expiresAt ≠ null ∧ expiresAt ≤ now`, so
a record whose `expiresAt` lies strictly in the future is active.  The source
instead counts every record with a non-null `expiresAt`: on a store holding one
record expiring at time 200, queried at time 100, the source reports
`{total 1, active 0, expired 1}` while the specified behavior is
`{total 1, active 1, expired 0}`. -/
theorem getUrlStats_future_expiry_divergence :
    getUrlStats [sampleRecord "https://example.com/a" (some 200)] =
      { total := 1, active := 0, expired := 1 } ∧
    getUrlStatsSpec [sampleRecord "https://example.com/a" (some 200)] 100 =
      { total := 1, active := 1, expired := 0 } ∧
    getUrlStats [sampleRecord "https://example.com/a" (some 200)] ≠
      getUrlStatsSpec [sampleRecord "https://example.com/a" (some 200)] 100 := by
  refine ⟨by decide, by decide, by decide⟩

/-- C2 counterexample: at the exact boundary `expiresAt = now` the claim says
the response is 410 GONE, but `isExpired` uses the strict `now > expiresAt`,
so the code still redirects (302 here). -/
theorem redirect_at_expiry_boundary_is_not_gone :
    redirectResolve (some (sampleRecord "https://example.com/a" (some 1000))) "abc" 1000 =
      .redirect 302 "https://example.com/a" ∧
    redirectResolve (some (sampleRecord "https://example.com/a" (some 1000))) "abc" 1000 ≠
      .gone := by
  refine ⟨by decide, by decide⟩

/-- C2 amended: for a well-formed code and a found record, the response is 410
GONE iff `expiresAt ≠ null ∧ expiresAt < now` (strictly in the past), and —
when the target passes the open-redirect guard — a 301/302 redirect is
returned iff `expiresAt = null ∨ expiresAt ≥ now`; at the boundary
`expiresAt = now` the record redirects. -/
theorem redirect_expiry_characterization (r : UrlRecord) (code : String) (now : Int)
    (h : isCodeFormatValid code = true) :
    (redirectResolve (some r) code now = .gone ↔
      ∃ e, r.expiresAt = some e ∧ e < now) ∧
    (isValidRedirectUrl r.original = true →
      ((∃ st loc, redirectResolve (some r) code now = .redirect st loc) ↔
        (r.expiresAt = none ∨ ∃ e, r.expiresAt = some e ∧ now ≤ e))) := by
  unfold redirectResolve UrlRecord.isExpired
  rw [h]
  simp only [Bool.true_eq_false, if_false]
  cases hE : r.expiresAt with
  | none =>
    by_cases hv : isValidRedirectUrl r.original = true
    · simp [hv]
    · rw [Bool.not_eq_true] at hv
      simp [hv]
  | some e =>
    by_cases hlt : e < now
    · simp only [hE, gt_iff_lt, hlt, decide_True, if_true]
      constructor
      · simp [hlt]
      · intro hv
        constructor
        · rintro ⟨st, loc, hcontra⟩
          exact absurd hcontra (by simp)
        · rintro (hnone | ⟨e2, he2, hle⟩)
          · exact absurd hnone (by simp)
          · cases he2
            omega
    · simp only [hE, gt_iff_lt, hlt, decide_False, if_false]
      constructor
      · by_cases hv : isValidRedirectUrl r.original = true
        · simp [hv]
          omega
        · rw [Bool.not_eq_true] at hv
          simp [hv]
          omega
      · intro hv
        simp [hv]
        omega

/-- Witness for `redirect_expiry_characterization` at a concrete record and
time. -/
theorem redirect_expiry_characterization_witness :
    isCodeFormatValid "abc" = true ∧
    ((redirectResolve (some (sampleRecord "https://example.com/a" (some 5))) "abc" 9 = .gone ↔
      ∃ e, (sampleRecord "https://example.com/a" (some 5)).expiresAt = some e ∧ e < 9) ∧
    (isValidRedirectUrl (sampleRecord "https://example.com/a" (some 5)).original = true →
      ((∃ st loc, redirectResolve (some (sampleRecord "https://example.com/a" (some 5))) "abc" 9 = .redirect st loc) ↔
        ((sampleRecord "https://example.com/a" (some 5)).expiresAt = none ∨
         ∃ e, (sampleRecord "https://example.com/a" (some 5)).expiresAt = some e ∧ (9:Int) ≤ e)))) :=
  ⟨by decide, redirect_expiry_characterization _ "abc" 9 (by decide)⟩

/-- An analytics hit event at a given millisecond timestamp for code `c`. -/
def hitAt (t : Int) : HitEvent :=
  { code := "c", timestamp := t, ip := "1.2.3.4", userAgent := "ua",
    referrer := none, country := none, city := none, deviceType := none,
    browser := none, os := none }

/-- C3: the claim says each application performs `firstAt ← min(firstAt, t)`
and `lastAt ← max(lastAt, t)`, so after events at 2024-01-01T12:00Z,
12:00:30Z and 13:00Z the row should end with `firstAt = 12:00Z`.  The source's
`UPDATE access_times SET first_accessed = ?, last_accessed = ?` binds both
columns to the event timestamp, overwriting them on every application: the row
ends with `firstAt = lastAt = 13:00Z` (both equal to 1704114000000 ms), not
`firstAt = 1704110400000`. -/
theorem accessTimes_overwritten_not_min_max :
    getAccessTimes
      (applyAllHits [hitAt 1704110400000, hitAt 1704110430000, hitAt 1704114000000]) "c" =
      some (1704114000000, 1704114000000) ∧
    getAccessTimes
      (applyAllHits [hitAt 1704110400000, hitAt 1704110430000, hitAt 1704114000000]) "c" ≠
      some (1704110400000, 1704114000000) := by
  refine ⟨by decide, by decide⟩

/-- C5: the claim says a record whose original URL has the loopback host
`::1` is never redirected and always answers 400 INVALID_REDIRECT.  In the
WHATWG URL class, `hostname` serializes an IPv6 host with its brackets, so the
guard's `hostname === '::1'` comparison can never match: a record pointing at
`http://[::1]/x` passes `isValidRedirectUrl` and is redirected with 302.  (For
contrast, the IPv4 loopback form is blocked as claimed.) -/
theorem ipv6_loopback_bypasses_redirect_guard :
    isValidRedirectUrl "http://[::1]/x" = true ∧
    redirectResolve (some (sampleRecord "http://[::1]/x" none)) "abc" 0 =
      .redirect 302 "http://[::1]/x" ∧
    isValidRedirectUrl "http://127.0.0.1/x" = false ∧
    isValidRedirectUrl "http://localhost/x" = false := by
  refine ⟨by decide, by decide, by decide, by decide⟩

/-- A consumer event whose fields are all present and whose timestamp sits
inside the tolerance window, but whose IP is not in IPv4/IPv6 format. -/
def hostnameIpEvent : ConsumerEvent :=
  { code := some "c", timestamp := some 1704110400000, ip := some "localhost",
    userAgent := some "Mozilla", referrer := none, country := none, city := none,
    deviceType := none, browser := none, os := none }

/-- A consumer event whose string fields are all present and whose IP is in
IPv4 format, but whose JSON timestamp failed to parse: the decoded field is an
Invalid Date. -/
def invalidDateEvent : ConsumerEvent :=
  { code := some "c", timestamp := none, ip := some "1.2.3.4",
    userAgent := some "Mozilla", referrer := none, country := none, city := none,
    deviceType := none, browser := none, os := none }

/-- `isValidHitEvent` written as one boolean conjunction (the truthiness test
on the decoded `Date` is constantly true). -/
theorem isValidHitEvent_eq (ev : ConsumerEvent) (now : Int) :
    isValidHitEvent ev now =
      (jsTruthyStr ev.code && jsTruthyStr ev.ip && jsTruthyStr ev.userAgent &&
       !(jsNumLt ev.timestamp (now - 86400000) || jsNumGt ev.timestamp (now + 300000)) &&
       ipRegexAccepts (ev.ip.getD "")) := by
  unfold isValidHitEvent jsDateTruthy
  by_cases hc : jsTruthyStr ev.code <;>
    by_cases hip : jsTruthyStr ev.ip <;>
    by_cases hua : jsTruthyStr ev.userAgent <;>
    by_cases hw : (jsNumLt ev.timestamp (now - 86400000) ||
                   jsNumGt ev.timestamp (now + 300000)) = true <;>
    by_cases hre : ipRegexAccepts (ev.ip.getD "") <;>
    simp [hc, hip, hua, hw, hre]

/-- The tolerance-window test rejects nothing exactly when every genuine
timestamp value lies in the window — vacuously so for an Invalid Date. -/
theorem window_pass_iff (d : Option Int) (now : Int) :
    (jsNumLt d (now - 86400000) || jsNumGt d (now + 300000)) = false ↔
      ∀ t, d = some t → now - 86400000 ≤ t ∧ t ≤ now + 300000 := by
  cases d with
  | none => simp [jsNumLt, jsNumGt]
  | some x =>
    simp only [jsNumLt, jsNumGt, Bool.or_eq_false_iff, decide_eq_false_iff_not,
      Option.some.injEq]
    constructor
    · rintro ⟨h1, h2⟩ t rfl
      omega
    · intro h
      have := h x rfl
      omega

/-- C9 counterexample: the claim says an event with `code`, `timestamp`, `ip`
and `userAgent` present and a timestamp inside `[now - 24h, now + 5min]` is
always applied.  The consumer additionally validates the IP against an
IPv4/full-IPv6 regex: an event with `ip = "localhost"` meets every condition
of the claim yet is skipped (the store is left unchanged, while applying it
would have changed the store). -/
theorem presentInWindowEvent_skipped_for_ip_format :
    jsTruthyStr hostnameIpEvent.code = true ∧
    jsDateTruthy hostnameIpEvent.timestamp = true ∧
    jsTruthyStr hostnameIpEvent.ip = true ∧
    jsTruthyStr hostnameIpEvent.userAgent = true ∧
    hostnameIpEvent.timestamp = some 1704110400000 ∧
    (1704110400000 : Int) - 86400000 ≤ 1704110400000 ∧
    (1704110400000 : Int) ≤ 1704110400000 + 300000 ∧
    processHitEvent emptyAnalytics hostnameIpEvent 1704110400000 = some emptyAnalytics ∧
    recordHitEvent emptyAnalytics (consumerEventToHit hostnameIpEvent 1704110400000) ≠
      emptyAnalytics := by
  refine ⟨by decide, by decide, by decide, by decide, by decide, by decide, by decide,
    by decide, by decide⟩

/-- C9 amended: the consumer applies a decoded event iff `code`, `ip` and
`userAgent` are present (JS truthiness), the IP matches the consumer's
IPv4/full-IPv6 regex, and the timestamp — always a `Date` object, truthy even
when Invalid — either is an Invalid Date (whose `NaN` time passes the window
test vacuously) or lies in `[now - 24h, now + 5min]`; an event meeting these
conditions is never skipped for any other reason, and an invalid one leaves
the store unchanged. -/
theorem processHitEvent_characterization (ev : ConsumerEvent) (now : Int)
    (s : AnalyticsState) :
    (isValidHitEvent ev now = true ↔
      (jsTruthyStr ev.code = true ∧ jsTruthyStr ev.ip = true ∧
       jsTruthyStr ev.userAgent = true ∧
       (∀ t, ev.timestamp = some t → now - 86400000 ≤ t ∧ t ≤ now + 300000) ∧
       ipRegexAccepts (ev.ip.getD "") = true)) ∧
    (isValidHitEvent ev now = false → processHitEvent s ev now = some s) ∧
    (∀ t, ev.timestamp = some t → isValidHitEvent ev now = true →
      processHitEvent s ev now = some (recordHitEvent s (consumerEventToHit ev t))) ∧
    (ev.timestamp = none → isValidHitEvent ev now = true →
      processHitEvent s ev now = none) := by
  refine ⟨?_, ?_, ?_, ?_⟩
  · rw [isValidHitEvent_eq]
    simp only [Bool.and_eq_true, Bool.not_eq_true']
    rw [window_pass_iff]
    constructor
    · rintro ⟨⟨⟨⟨hc, hip⟩, hua⟩, hw⟩, hre⟩
      exact ⟨hc, hip, hua, hw, hre⟩
    · rintro ⟨hc, hip, hua, hw, hre⟩
      exact ⟨⟨⟨⟨hc, hip⟩, hua⟩, hw⟩, hre⟩
  · intro hv
    unfold processHitEvent
    rw [hv]
    simp
  · intro t ht hv
    unfold processHitEvent
    rw [hv, ht]
    simp
  · intro ht hv
    unfold processHitEvent
    rw [hv, ht]
    simp

/-- Witness for `processHitEvent_characterization`, instantiated at the
Invalid-Date event: the event is accepted (not skipped), together with the
full characterization at that event. -/
theorem processHitEvent_characterization_witness :
    isValidHitEvent invalidDateEvent 1704110400000 = true ∧
    processHitEvent emptyAnalytics invalidDateEvent 1704110400000 ≠
      some emptyAnalytics ∧
    ((isValidHitEvent invalidDateEvent 1704110400000 = true ↔
      (jsTruthyStr invalidDateEvent.code = true ∧
       jsTruthyStr invalidDateEvent.ip = true ∧
       jsTruthyStr invalidDateEvent.userAgent = true ∧
       (∀ t, invalidDateEvent.timestamp = some t →
         (1704110400000 : Int) - 86400000 ≤ t ∧ t ≤ 1704110400000 + 300000) ∧
       ipRegexAccepts (invalidDateEvent.ip.getD "") = true)) ∧
    (isValidHitEvent invalidDateEvent 1704110400000 = false →
      processHitEvent emptyAnalytics invalidDateEvent 1704110400000 =
        some emptyAnalytics) ∧
    (∀ t, invalidDateEvent.timestamp = some t →
      isValidHitEvent invalidDateEvent 1704110400000 = true →
      processHitEvent emptyAnalytics invalidDateEvent 1704110400000 =
        some (recordHitEvent emptyAnalytics (consumerEventToHit invalidDateEvent t))) ∧
    (invalidDateEvent.timestamp = none →
      isValidHitEvent invalidDateEvent 1704110400000 = true →
      processHitEvent emptyAnalytics invalidDateEvent 1704110400000 = none)) :=
  ⟨by decide, by decide,
   processHitEvent_characterization invalidDateEvent 1704110400000 emptyAnalytics⟩

/-- C6: for a redirect whose record passes the expiry and open-redirect
checks, thrown failures of the hit-count increment, of the geo/user-agent
enrichment, or of the event-bus publish never change the response: the client
still receives the chosen 301/302 redirect to the original URL, exactly as in
the failure-free run. -/
theorem redirect_response_isolated_from_side_effects (url : UrlRecord)
    (code : String) (now : Int) (incThrows enrichThrows publishThrows : Bool)
    (hc : isCodeFormatValid code = true) (he : url.isExpired now = false)
    (hv : isValidRedirectUrl url.original = true) :
    redirectPipeline (some url) code now incThrows enrichThrows publishThrows =
      .ok (.redirect (if getRedirectType url.original then 301 else 302) url.original) ∧
    redirectPipeline (some url) code now incThrows enrichThrows publishThrows =
      redirectPipeline (some url) code now false false false := by
  unfold redirectPipeline incrementHitCountM recordHitEventM publishHitEventM swallow
  simp only [hc, he, hv, Bool.true_eq_false, Bool.false_eq_true, if_false]
  cases incThrows <;> cases enrichThrows <;> cases publishThrows <;>
    exact ⟨rfl, rfl⟩

/-- Witness for `redirect_response_isolated_from_side_effects`: with every
side effect throwing, the response is still the redirect. -/
theorem redirect_response_isolated_witness :
    redirectPipeline (some (sampleRecord "https://example.com/a" none)) "abc" 0
        true true true =
      .ok (.redirect
        (if getRedirectType (sampleRecord "https://example.com/a" none).original
          then 301 else 302)
        (sampleRecord "https://example.com/a" none).original) :=
  (redirect_response_isolated_from_side_effects
    (sampleRecord "https://example.com/a" none) "abc" 0 true true true
    (by decide) (by decide) (by decide)).1

def dedupDto1 : CreateUrlDto :=
  { url := "https://Example.COM/path?utm_source=x&a=1", customAlias := none,
    expiresAt := none, clientIp := none, userAgent := none }

def dedupDto2 : CreateUrlDto :=
  { url := "https://example.com/path/?a=1&utm_medium=y", customAlias := none,
    expiresAt := none, clientIp := none, userAgent := none }

def dedupRecord1 : UrlRecord :=
  { code := "abc1234", original := "https://Example.COM/path?utm_source=x&a=1",
    normalized := "https://example.com/path?a=1", hitCount := 0,
    customAlias := none, expiresAt := none, createdAt := 1,
    creatorIp := none, creatorUserAgent := none }

/-- C4: whenever a resolvable (non-expired) record with the same normalized
URL exists, `createShortUrl` returns that record unchanged with
`isNew = false` — and in the concrete scenario, posting
`https://Example.COM/path?utm_source=x&a=1` and then
`https://example.com/path/?a=1&utm_medium=y` stores the normalized URL
`https://example.com/path?a=1` and hands the second caller the first record's
code with `isNew = false`, leaving the store unchanged. -/
theorem createShortUrl_dedup :
    (∀ (store : List UrlRecord) (dto : CreateUrlDto) (now : Int) (fc bu : String)
       (r : UrlRecord),
       findByNormalizedUrl store (normalizeUrl dto.url) = some r →
       r.isExpired now = false →
       createShortUrl store dto now fc bu =
         .ok ({ code := r.code, shortUrl := r.getShortUrl bu,
                original := r.original, createdAt := r.createdAt,
                expiresAt := r.expiresAt, isNew := false }, store)) ∧
    createShortUrl [] dedupDto1 1 "abc1234" "http://sho.rt" =
      .ok ({ code := "abc1234", shortUrl := "http://sho.rt/abc1234",
             original := dedupDto1.url, createdAt := 1, expiresAt := none,
             isNew := true }, [dedupRecord1]) ∧
    createShortUrl [dedupRecord1] dedupDto2 2 "zzzzzzz" "http://sho.rt" =
      .ok ({ code := "abc1234", shortUrl := "http://sho.rt/abc1234",
             original := dedupDto1.url, createdAt := 1, expiresAt := none,
             isNew := false }, [dedupRecord1]) ∧
    dedupRecord1.normalized = "https://example.com/path?a=1" := by
  refine ⟨?_, by decide, by decide, by decide⟩
  intro store dto now fc bu r hfind hres
  simp only [createShortUrl, hfind, hres]
  simp

/-- Witness for `createShortUrl_dedup`: the universally quantified dedup
branch applied at the concrete second request of the scenario. -/
theorem createShortUrl_dedup_witness :
    createShortUrl [dedupRecord1] dedupDto2 2 "qqqqqqq" "http://sho.rt" =
      .ok ({ code := dedupRecord1.code,
             shortUrl := dedupRecord1.getShortUrl "http://sho.rt",
             original := dedupRecord1.original,
             createdAt := dedupRecord1.createdAt,
             expiresAt := dedupRecord1.expiresAt, isNew := false },
           [dedupRecord1]) :=
  createShortUrl_dedup.1 [dedupRecord1] dedupDto2 2 "qqqqqqq" "http://sho.rt"
    dedupRecord1 (by decide) (by decide)

/-- A store carrying eleven referrer rows for code `c`: `r01` with 2 hits and
ten more with 1 hit each (12 hits in total; the top-10 slice holds 11). -/
def elevenReferrers : AnalyticsState :=
  { emptyAnalytics with referrers :=
      [⟨"c", "r01", 2⟩, ⟨"c", "r02", 1⟩, ⟨"c", "r03", 1⟩, ⟨"c", "r04", 1⟩,
       ⟨"c", "r05", 1⟩, ⟨"c", "r06", 1⟩, ⟨"c", "r07", 1⟩, ⟨"c", "r08", 1⟩,
       ⟨"c", "r09", 1⟩, ⟨"c", "r10", 1⟩, ⟨"c", "r11", 1⟩] }

/-- C8 counterexample: the claim says `percentage = 100 · count / Σ(referrers)`
with the sum over ALL referrer rows stored for the code.  The source reduces
the total over the already-sliced top-10 list: with eleven rows totalling 12
hits the top entry is reported as `200/11 %`, where the claim requires
`100 · 2 / 12 = 50/3 %`. -/
theorem topReferrers_percentage_uses_sliced_total :
    (getTopReferrers elevenReferrers "c" 10).head?.map (fun e => e.percentage) =
      some ((200 : ℚ) / 11) ∧
    (getTopReferrersSpec elevenReferrers "c" 10).head?.map (fun e => e.percentage) =
      some ((50 : ℚ) / 3) ∧
    ((200 : ℚ) / 11) ≠ (50 : ℚ) / 3 := by
  refine ⟨?_, ?_, by norm_num⟩
  · simp [getTopReferrers, attachReferrerPercentages, elevenReferrers,
      emptyAnalytics, List.insertionSort, List.orderedInsert]
    norm_num
  · simp [getTopReferrersSpec, elevenReferrers, emptyAnalytics,
      List.insertionSort, List.orderedInsert]
    norm_num

instance : IsTotal (String × Nat) (fun a b => b.2 ≤ a.2) :=
  ⟨fun a b => le_total b.2 a.2⟩

instance : IsTrans (String × Nat) (fun a b => b.2 ≤ a.2) :=
  ⟨fun _ _ _ hab hbc => le_trans hbc hab⟩

/-- The hit total reduced over a returned list of referrer entries. -/
def returnedReferrerTotal (l : List ReferrerStat) : Nat :=
  l.foldl (fun acc x => acc + x.hits) 0

theorem returnedReferrerTotal_attach (top : List (String × Nat)) :
    returnedReferrerTotal (attachReferrerPercentages top) =
      top.foldl (fun acc r => acc + r.2) 0 := by
  unfold returnedReferrerTotal attachReferrerPercentages
  rw [List.foldl_map]

/-- C8 amended: `getTopReferrers` returns the referrer rows sorted descending
by count and truncated to the top `limit`, and each returned entry carries
`percentage = 100 · count / Σ(top)`, where the sum ranges over the RETURNED
top rows only (zero when that sum is zero). -/
theorem topReferrers_sorted_truncated_percentages (s : AnalyticsState)
    (c : String) (limit : Nat) :
    (getTopReferrers s c limit).length ≤ limit ∧
    List.Pairwise (fun a b => b.hits ≤ a.hits) (getTopReferrers s c limit) ∧
    ∀ e ∈ getTopReferrers s c limit,
      e.percentage =
        if 0 < returnedReferrerTotal (getTopReferrers s c limit) then
          ((e.hits : ℚ) / (returnedReferrerTotal (getTopReferrers s c limit) : ℚ)) * 100
        else 0 := by
  refine ⟨?_, ?_, ?_⟩
  · unfold getTopReferrers attachReferrerPercentages
    simp [List.length_take]
  · unfold getTopReferrers attachReferrerPercentages
    rw [List.pairwise_map]
    exact List.Pairwise.sublist (List.take_sublist _ _)
      (List.sorted_insertionSort _ _)
  · unfold getTopReferrers
    rw [returnedReferrerTotal_attach]
    intro e he
    unfold attachReferrerPercentages at he
    rw [List.mem_map] at he
    obtain ⟨r, hr, rfl⟩ := he
    rfl

/-- Witness for `topReferrers_sorted_truncated_percentages` at the concrete
eleven-row store. -/
theorem topReferrers_sorted_truncated_percentages_witness :
    (getTopReferrers elevenReferrers "c" 10).length ≤ 10 :=
  (topReferrers_sorted_truncated_percentages elevenReferrers "c" 10).1

theorem foldl_add_eq_sum {α : Type} (f : α → Nat) (l : List α) (n : Nat) :
    l.foldl (fun a x => a + f x) n = n + (l.map f).sum := by
  induction l generalizing n with
  | nil => simp
  | cons x xs ih => simp [ih, Nat.add_assoc]

/-- The unique-visitors column total that `getTotalStats` reads for a code. -/
def hourUvSum (rows : List HourRow) (c : String) : Nat :=
  ((rows.filter (fun r => decide (r.code = c) && true)).map
    (fun r => r.uniqueVisitors)).sum

theorem hourUvSum_bumpHour (rows : List HourRow) (code : String) (d h : Int)
    (c : String) :
    hourUvSum (bumpHour rows code d h) c =
      hourUvSum rows c + (if code = c then 1 else 0) := by
  induction rows with
  | nil =>
    by_cases hc : code = c
    · simp [bumpHour, hourUvSum, hc]
    · simp [bumpHour, hourUvSum, hc]
  | cons r rs ih =>
    by_cases hhit : r.code = code ∧ r.date = d ∧ r.hour = h
    · obtain ⟨h1, h2, h3⟩ := hhit
      by_cases hc : r.code = c
      · simp [bumpHour, h1, h2, h3, hourUvSum, hc, h1 ▸ hc]
        omega
      · have hcc : ¬(code = c) := fun hx => hc (h1.trans hx)
        simp [bumpHour, h1, h2, h3, hourUvSum, hc, hcc]
    · rw [show bumpHour (r :: rs) code d h = r :: bumpHour rs code d h by
        simp [bumpHour, hhit]]
      by_cases hc : r.code = c
      · simp only [hourUvSum, List.filter_cons, hc, decide_True, Bool.true_and,
          Bool.and_true, if_true, List.map_cons, List.sum_cons] at ih ⊢
        have := ih
        simp only [hourUvSum] at this
        omega
      · simp only [hourUvSum, List.filter_cons, hc, decide_False, Bool.false_and,
          Bool.and_true, if_false] at ih ⊢
        exact ih

theorem recordHitEvent_hitsByHour (s : AnalyticsState) (ev : HitEvent) :
    (recordHitEvent s ev).hitsByHour =
      bumpHour s.hitsByHour ev.code (tsDate ev.timestamp) (tsHour ev.timestamp) := rfl

theorem hourUvSum_foldl (es : List HitEvent) (s : AnalyticsState) (c : String) :
    hourUvSum (es.foldl recordHitEvent s).hitsByHour c =
      hourUvSum s.hitsByHour c + (es.filter (fun e => e.code = c)).length := by
  induction es generalizing s with
  | nil => simp
  | cons e es ih =>
    rw [List.foldl_cons, ih, recordHitEvent_hitsByHour, hourUvSum_bumpHour]
    by_cases hc : e.code = c
    · simp [hc]
      omega
    · simp [hc]

/-- C10: the `uniqueVisitors` value returned by the analytics query equals the
number of hit events applied for the code — each application increments the
`unique_visitors` counter of its hour row by 1, duplicates included — and the
query depends only on the `hits_by_hour` table, never on the
`unique_visitors` set table (which deduplicates: two identical events leave a
single set row but report `uniqueVisitors = 2`). -/
theorem uniqueVisitors_counts_every_application (es : List HitEvent) (c : String) :
    (getTotalStats (applyAllHits es) c none).uniqueVisitors =
      (es.filter (fun e => e.code = c)).length ∧
    (∀ s₁ s₂ : AnalyticsState, s₁.hitsByHour = s₂.hitsByHour →
      ∀ rng, getTotalStats s₁ c rng = getTotalStats s₂ c rng) ∧
    (getTotalStats (applyAllHits [hitAt 1704110400000, hitAt 1704110400000])
        "c" none).uniqueVisitors = 2 ∧
    ((applyAllHits [hitAt 1704110400000, hitAt 1704110400000]).uniqueVisitors.filter
      (fun v => v.code = "c")).length = 1 := by
  refine ⟨?_, ?_, by decide, by decide⟩
  · have h := hourUvSum_foldl es emptyAnalytics c
    simp only [hourUvSum, emptyAnalytics, List.filter_nil, List.map_nil,
      List.sum_nil, Nat.zero_add] at h
    unfold getTotalStats applyAllHits
    dsimp only
    rw [foldl_add_eq_sum]
    simpa using h
  · intro s₁ s₂ hh rng
    unfold getTotalStats
    rw [hh]

/-- Witness for `uniqueVisitors_counts_every_application`, its state-dependence
conjunct applied at two concrete states sharing the hour table. -/
theorem uniqueVisitors_counts_every_application_witness :
    getTotalStats emptyAnalytics "c" none =
      getTotalStats { emptyAnalytics with accessTimes := [⟨"c", 0, 0⟩] } "c" none :=
  (uniqueVisitors_counts_every_application [] "c").2.1 emptyAnalytics
    { emptyAnalytics with accessTimes := [⟨"c", 0, 0⟩] } rfl none

/-! ## C7: idempotence of `normalizeUrl` -/


/-- C7 counterexample: the trailing-slash step removes a single slash, so a
path ending in a double slash is not a fixpoint: normalizing
`https://example.com/a//` yields `https://example.com/a/`, and normalizing
that yields `https://example.com/a`. -/
theorem normalizeUrl_not_idempotent_on_double_slash :
    normalizeUrl (normalizeUrl "https://example.com/a//") ≠
      normalizeUrl "https://example.com/a//" ∧
    normalizeUrl "https://example.com/a//" = "https://example.com/a/" ∧
    normalizeUrl "https://example.com/a/" = "https://example.com/a" := by
  refine ⟨by decide, by decide, by decide⟩

/-! Character-level facts about `Char.toLower`. -/

theorem toNat_ofNat_valid (n : Nat) (h : n.isValidChar) : (Char.ofNat n).toNat = n := by
  simp [Char.ofNat, h, Char.ofNatAux, Char.toNat, UInt32.toNat]

theorem toLower_toNat (c : Char) :
    (Char.toLower c).toNat =
      if 65 ≤ c.toNat ∧ c.toNat ≤ 90 then c.toNat + 32 else c.toNat := by
  unfold Char.toLower
  by_cases h : c.toNat ≥ 65 ∧ c.toNat ≤ 90
  · rw [if_pos h, if_pos h]
    exact toNat_ofNat_valid _ (Or.inl (by omega))
  · rw [if_neg h, if_neg h]

theorem toLower_toLower (c : Char) : c.toLower.toLower = c.toLower := by
  unfold Char.toLower
  by_cases h : c.toNat ≥ 65 ∧ c.toNat ≤ 90
  · rw [if_pos h]
    have hv : (c.toNat + 32).isValidChar := Or.inl (by omega)
    rw [if_neg (by rw [toNat_ofNat_valid _ hv]; omega)]
  · rw [if_neg h, if_neg h]

theorem map_toLower_toLower (l : Chars) :
    (l.map Char.toLower).map Char.toLower = l.map Char.toLower := by
  rw [List.map_map]
  exact List.map_congr_left (fun c _ => toLower_toLower c)

theorem isAsciiLetterCh_toLower (c : Char) (h : isAsciiLetterCh c = true) :
    isAsciiLetterCh c.toLower = true := by
  simp only [isAsciiLetterCh, Bool.or_eq_true, Bool.and_eq_true,
    decide_eq_true_eq] at h ⊢
  rw [toLower_toNat]
  split <;> omega

theorem isSchemeCh_toLower (c : Char) (h : isSchemeCh c = true) :
    isSchemeCh c.toLower = true := by
  simp only [isSchemeCh, isAsciiLetterCh, isDigitCh, Bool.or_eq_true,
    Bool.and_eq_true, decide_eq_true_eq] at h ⊢
  rw [toLower_toNat]
  split <;> omega

/-! List-splitting facts used by the reparse lemma. -/

theorem breakAt_not_mem {sep : Char} {xs : Chars} (h : sep ∉ xs) :
    breakAt sep xs = (xs, none) := by
  induction xs with
  | nil => rfl
  | cons c cs ih =>
    have hc : ¬(c = sep) := fun he => h (he ▸ List.mem_cons_self c cs)
    simp only [breakAt, if_neg hc, ih (fun hm => h (List.mem_cons_of_mem c hm))]

theorem breakAt_cons_ne {sep c : Char} (cs : Chars) (hc : ¬(c = sep)) :
    breakAt sep (c :: cs) = (c :: (breakAt sep cs).1, (breakAt sep cs).2) := by
  simp [breakAt, hc]

theorem breakAt_append {sep : Char} {xs ys : Chars} (h : sep ∉ xs) :
    breakAt sep (xs ++ sep :: ys) = (xs, some ys) := by
  induction xs with
  | nil => simp [breakAt]
  | cons c cs ih =>
    have hc : ¬(c = sep) := fun he => h (he ▸ List.mem_cons_self c cs)
    rw [List.cons_append, breakAt_cons_ne _ hc,
      ih (fun hm => h (List.mem_cons_of_mem c hm))]

theorem breakAt_eq_none {sep : Char} {l a : Chars}
    (h : breakAt sep l = (a, none)) : l = a ∧ sep ∉ a := by
  induction l generalizing a with
  | nil =>
    simp only [breakAt, Prod.mk.injEq] at h
    simp [← h.1]
  | cons c cs ih =>
    by_cases hc : c = sep
    · simp [breakAt, hc] at h
    · rw [breakAt_cons_ne cs hc, Prod.mk.injEq] at h
      obtain ⟨h1, h2⟩ := h
      have hr : breakAt sep cs = ((breakAt sep cs).1, none) := by
        rw [← h2]
      obtain ⟨ha, hm⟩ := ih hr
      subst h1
      refine ⟨by rw [← ha], ?_⟩
      intro hmem
      rcases List.mem_cons.mp hmem with he | hm2
      · exact hc he.symm
      · exact hm hm2

theorem breakAt_eq_some {sep : Char} {l a b : Chars}
    (h : breakAt sep l = (a, some b)) : l = a ++ sep :: b ∧ sep ∉ a := by
  induction l generalizing a with
  | nil => simp [breakAt] at h
  | cons c cs ih =>
    by_cases hc : c = sep
    · simp only [breakAt, if_pos hc, Prod.mk.injEq] at h
      obtain ⟨h1, h2⟩ := h
      subst hc
      rw [← h1, Option.some.injEq] at *
      subst h2
      exact ⟨rfl, List.not_mem_nil _⟩
    · rw [breakAt_cons_ne cs hc, Prod.mk.injEq] at h
      obtain ⟨h1, h2⟩ := h
      have hr : breakAt sep cs = ((breakAt sep cs).1, some b) := by
        rw [← h2]
      obtain ⟨ha, hm⟩ := ih hr
      subst h1
      constructor
      · rw [List.cons_append, ← ha]
      · intro hmem
        rcases List.mem_cons.mp hmem with he | hm2
        · exact hc he.symm
        · exact hm hm2

theorem takeWhile_all {p : Char → Bool} {l : Chars} (h : ∀ x ∈ l, p x = true) :
    l.takeWhile p = l := by
  induction l with
  | nil => rfl
  | cons c cs ih =>
    rw [List.takeWhile_cons, if_pos (h c (List.mem_cons_self c cs))]
    rw [ih (fun x hx => h x (List.mem_cons_of_mem c hx))]

theorem takeWhile_append_cons {p : Char → Bool} {xs : Chars} (y : Char) (ys : Chars)
    (hxs : ∀ x ∈ xs, p x = true) (hy : p y = false) :
    (xs ++ y :: ys).takeWhile p = xs := by
  induction xs with
  | nil => simp [List.takeWhile_cons, hy]
  | cons c cs ih =>
    rw [List.cons_append, List.takeWhile_cons,
      if_pos (hxs c (List.mem_cons_self c cs))]
    rw [ih (fun x hx => hxs x (List.mem_cons_of_mem c hx))]

theorem drop_append_cons {xs : Chars} (y : Char) (ys : Chars) :
    (xs ++ y :: ys).drop (xs.length + 1) = ys := by
  have : xs ++ y :: ys = (xs ++ [y]) ++ ys := by simp
  rw [this, show xs.length + 1 = (xs ++ [y]).length by simp]
  exact List.drop_left _ _

theorem not_mem_of_all_ne {l : Chars} {x : Char}
    (h : ∀ y ∈ l, y ≠ x) : x ∉ l := fun hm => h x hm rfl

theorem all_imp_not_mem {p : Char → Bool} {l : Chars} (h : l.all p = true)
    {x : Char} (hx : p x = false) : x ∉ l := by
  intro hm
  have := List.all_eq_true.mp h x hm
  rw [hx] at this
  exact Bool.false_ne_true this

/-- Every character of a canonical host satisfies the given test when the test
holds for `[`, `]`, every inside character and every plain host character. -/
theorem host_all {hostL : Chars}
    (hc : hostCanon hostL)
    (p : Char → Bool)
    (hbr : p '[' = true) (hbl : p ']' = true)
    (hin : ∀ c, isInsideCh c = true → p c = true)
    (hpl : ∀ c, isPlainHostCh c = true → p c = true) :
    hostL.all p = true := by
  rw [hostCanon] at hc
  rcases hc with ⟨inside, heq, _, hall⟩ | ⟨_, hall⟩
  · subst heq
    rw [List.all_eq_true]
    intro x hx
    rcases List.mem_cons.mp hx with rfl | hx2
    · exact hbr
    · rcases List.mem_append.mp hx2 with hx3 | hx4
      · exact hin x (List.all_eq_true.mp hall x hx3)
      · rw [List.mem_singleton.mp hx4]
        exact hbl
  · rw [List.all_eq_true]
    intro x hx
    exact hpl x (List.all_eq_true.mp hall x hx)

/-- The serializer, written in fully right-nested form. -/
theorem serializeUrl_shape (p : ParsedUrl) :
    serializeUrl p = p.scheme ++ ':' :: '/' :: '/' ::
      (p.host ++ (portPartOf p.port ++ (p.path ++
        (queryPartOf p.query ++ fragPartOf p.fragment)))) := by
  simp [serializeUrl]

theorem any_forbidden_false {l : Chars} (h : l.all isPlainHostCh = true) :
    l.any isForbiddenHostCh = false := by
  rw [Bool.eq_false_iff]
  intro hany
  obtain ⟨x, hx, hfx⟩ := List.any_eq_true.mp hany
  have := List.all_eq_true.mp h x hx
  simp only [isPlainHostCh, Bool.and_eq_true, Bool.not_eq_true'] at this
  rw [this.1.1.1.1] at hfx
  exact Bool.false_ne_true hfx

theorem parseHostPort_reconstruct (hostL : Chars) (port : Option Chars)
    (hh : hostCanon hostL) (hp : portCanon port) :
    parseHostPort (hostL ++ portPartOf port) = some (hostL, port) := by
  rw [hostCanon] at hh
  rcases hh with ⟨inside, heq, hne, hall⟩ | ⟨hne, hall⟩
  · subst heq
    have hnotmem : ']' ∉ inside :=
      all_imp_not_mem hall (by decide)
    have hshape : ('[' :: inside ++ [']']) ++ portPartOf port =
        '[' :: (inside ++ ']' :: portPartOf port) := by
      simp
    rw [hshape]
    simp only [parseHostPort]
    rw [breakAt_append hnotmem]
    simp only [hne, hall, ne_eq, not_false_iff, true_and, if_true]
    cases port with
    | none => simp [portPartOf]
    | some d =>
      obtain ⟨hd1, hd2⟩ := hp
      simp [portPartOf, hd1, hd2]
  · cases hhost : hostL with
    | nil => exact absurd hhost hne
    | cons h0 t =>
      subst hhost
      have hh0 : isPlainHostCh h0 = true :=
        List.all_eq_true.mp hall h0 (List.mem_cons_self h0 t)
      have hb : ¬(h0 = '[') := by
        intro he
        rw [he] at hh0
        exact absurd hh0 (by decide)
      have hcolon : ∀ x ∈ h0 :: t, (fun c => decide ¬(c = ':')) x = true := by
        intro x hx
        have := List.all_eq_true.mp hall x hx
        simp only [decide_eq_true_eq]
        intro he
        rw [he] at this
        exact absurd this (by decide)
      cases port with
      | none =>
        simp only [portPartOf, List.append_nil]
        unfold parseHostPort
        split
        · rename_i rest heq2
          injection heq2 with h1 h2
          exact absurd h1 hb
        · dsimp only
          rw [takeWhile_all hcolon, List.drop_length,
            if_neg (by simp [any_forbidden_false hall])]
      | some d =>
        obtain ⟨hd1, hd2⟩ := hp
        simp only [portPartOf]
        rw [List.cons_append]
        unfold parseHostPort
        split
        · rename_i rest heq2
          injection heq2 with h1 h2
          exact absurd h1 hb
        · dsimp only
          rw [← List.cons_append,
            takeWhile_append_cons ':' d hcolon (by decide), List.drop_left]
          rw [if_neg (by simp [any_forbidden_false hall])]
          simp [hd1, hd2]

theorem insideCh_notN : ∀ (n : Nat), n = 35 ∨ n = 63 ∨ n = 47 →
    ∀ c : Char, isInsideCh c = true → (!(c.toNat = n)) = true := by
  intro n hn c h
  simp only [isInsideCh, isHexDigitCh, isDigitCh, Bool.or_eq_true, Bool.and_eq_true,
    decide_eq_true_eq] at h
  simp only [Bool.not_eq_true', decide_eq_false_iff_not]
  omega

theorem plainCh_notN : ∀ (n : Nat), n = 35 ∨ n = 63 ∨ n = 47 →
    ∀ c : Char, isPlainHostCh c = true → (!(c.toNat = n)) = true := by
  intro n hn c h
  simp only [isPlainHostCh, isForbiddenHostCh, Bool.and_eq_true, Bool.not_eq_true',
    Bool.or_eq_true, decide_eq_false_iff_not, decide_eq_true_eq] at h
  simp only [Bool.not_eq_true', decide_eq_false_iff_not]
  omega

theorem not_mem_of_toNat_all {l : Chars} {n : Nat}
    (h : l.all (fun c => !(c.toNat = n)) = true) {x : Char} (hx : x.toNat = n) :
    x ∉ l := by
  intro hm
  have := List.all_eq_true.mp h x hm
  rw [hx] at this
  simp at this


theorem schemeCh_notN {scheme : Chars} (hsAll : scheme.all isSchemeCh = true)
    (n : Nat) (hn : n = 35 ∨ n = 63 ∨ n = 58 ∨ n = 47) :
    ∀ x ∈ scheme, ¬(x.toNat = n) := by
  intro x hx he
  have := List.all_eq_true.mp hsAll x hx
  simp only [isSchemeCh, isAsciiLetterCh, isDigitCh, Bool.or_eq_true,
    Bool.and_eq_true, decide_eq_true_eq] at this
  omega

theorem hostCh_notN {host : Chars}
    (hhost : hostCanon host)
    (n : Nat) (hn : n = 35 ∨ n = 63 ∨ n = 47) :
    ∀ x ∈ host, ¬(x.toNat = n) := by
  intro x hx he
  have hall := host_all hhost (fun c => !(c.toNat = n))
    (by simp; omega) (by simp; omega) (insideCh_notN n hn) (plainCh_notN n hn)
  have := List.all_eq_true.mp hall x hx
  rw [he] at this
  simp at this

theorem portCh_notN {pp : Chars} {port : Option Chars}
    (hplist : (port = none ∧ pp = []) ∨
      (∃ d, port = some d ∧ pp = ':' :: d ∧ d ≠ [] ∧ d.all isDigitCh = true))
    (n : Nat) (hn : n = 35 ∨ n = 63 ∨ n = 47) :
    ∀ x ∈ pp, ¬(x.toNat = n) := by
  intro x hx he
  rcases hplist with ⟨_, hpp⟩ | ⟨d, _, hpp, _, hdig⟩
  · rw [hpp] at hx
    exact absurd hx (List.not_mem_nil x)
  · rw [hpp] at hx
    rcases List.mem_cons.mp hx with rfl | hx2
    · have h58 : (':' : Char).toNat = 58 := rfl
      omega
    · have := List.all_eq_true.mp hdig x hx2
      simp only [isDigitCh, Bool.and_eq_true, decide_eq_true_eq] at this
      omega

theorem pathCh_notN {path : Chars}
    (hpathAll : path.all (fun c => !(c.toNat = 63) && !(c.toNat = 35)) = true)
    (n : Nat) (hn : n = 35 ∨ n = 63) :
    ∀ x ∈ path, ¬(x.toNat = n) := by
  intro x hx he
  have := List.all_eq_true.mp hpathAll x hx
  simp only [Bool.and_eq_true, Bool.not_eq_true', decide_eq_false_iff_not] at this
  omega

/-- The computation of `parseUrl` on a canonical serialized URL, once the
fragment and query splits are given. -/
theorem parseUrl_of_breaks (u bq : Chars) (scheme host : Chars)
    (port : Option Chars) (path : Chars) (query fragment : Option Chars)
    (pp : Chars)
    (hb1 : breakAt '#' u = (bq, fragment))
    (hb2 : breakAt '?' bq = (scheme ++ ':' :: '/' :: '/' :: (host ++ (pp ++ path)), query))
    (hsHead : schemeHeadOk scheme = true)
    (hsAll : scheme.all isSchemeCh = true)
    (hsLower : scheme.map Char.toLower = scheme)
    (hhost : hostCanon host)
    (hplist : (port = none ∧ pp = []) ∨
      (∃ d, port = some d ∧ pp = ':' :: d ∧ d ≠ [] ∧ d.all isDigitCh = true))
    (prest : Chars) (hprest : path = '/' :: prest) :
    parseUrl u = some ⟨scheme, host, port, path, query, fragment⟩ := by
  have hcolon : ∀ x ∈ scheme, (fun c => decide ¬(c = ':')) x = true := by
    intro x hx
    simp only [decide_eq_true_eq]
    intro he
    exact schemeCh_notN hsAll 58 (by omega) x hx (by rw [he]; rfl)
  unfold parseUrl
  rw [hb1]
  dsimp only
  rw [hb2]
  dsimp only
  rw [takeWhile_append_cons ':' _ hcolon (by decide)]
  rw [if_neg (by simp [List.length_append])]
  cases hscheme : scheme with
  | nil =>
    rw [hscheme] at hsHead
    exact absurd hsHead (by decide)
  | cons c0 srest =>
    subst hscheme
    split
    · rename_i heq3
      exact absurd heq3 (List.cons_ne_nil c0 srest)
    · rename_i c0b tailb heq3
      injection heq3 with he1 he2
      subst he1
      subst he2
      rw [if_pos ⟨by exact hsHead, hsAll⟩]
      rw [drop_append_cons ':' _]
      have hslash : ∀ x ∈ host ++ pp, (fun c => decide ¬(c = '/')) x = true := by
        intro x hx
        simp only [decide_eq_true_eq]
        intro he
        rcases List.mem_append.mp hx with hx2 | hx2
        · exact hostCh_notN hhost 47 (by omega) x hx2 (by rw [he]; rfl)
        · exact portCh_notN hplist 47 (by omega) x hx2 (by rw [he]; rfl)
      have hrw : host ++ (pp ++ path) = (host ++ pp) ++ '/' :: prest := by
        rw [hprest, List.append_assoc]
      rw [hrw]
      split
      · rename_i rest2 heq4
        injection heq4 with he3 he4
        injection he4 with he5 he6
        subst he6
        rw [takeWhile_append_cons '/' _ hslash (by decide), List.drop_left]
        rcases hplist with ⟨rfl, rfl⟩ | ⟨d, rfl, rfl, hd1, hd2⟩
        · have hrec := parseHostPort_reconstruct host none hhost trivial
          simp only [portPartOf] at hrec
          rw [hrec]
          dsimp only
          rw [if_neg (by simp)]
          rw [hsLower, ← hprest]
        · have hrec := parseHostPort_reconstruct host (some d) hhost ⟨hd1, hd2⟩
          simp only [portPartOf] at hrec
          rw [hrec]
          dsimp only
          rw [if_neg (by simp)]
          rw [hsLower, ← hprest]
      · rename_i hne4
        exact absurd rfl (hne4 (host ++ pp ++ '/' :: prest))

theorem parseUrl_serializeUrl (p : ParsedUrl) (hc : UrlCanon p) :
    parseUrl (serializeUrl p) = some p := by
  obtain ⟨scheme, host, port, path, query, fragment⟩ := p
  obtain ⟨hsHead, hsAll, hsLower, hhost, hport, hpath, hquery⟩ := hc
  dsimp only at hsHead hsAll hsLower hhost hport hpath hquery
  obtain ⟨⟨prest, hprest⟩, hpathAll⟩ := hpath
  have hppfacts : (port = none ∧ portPartOf port = []) ∨
      (∃ d, port = some d ∧ portPartOf port = ':' :: d ∧
        d ≠ [] ∧ d.all isDigitCh = true) := by
    revert hport
    cases port with
    | none => intro hport; exact Or.inl ⟨rfl, rfl⟩
    | some d => intro hport; exact Or.inr ⟨d, rfl, rfl, hport.1, hport.2⟩
  have hcore2 : ∀ (n : Nat), n = 35 ∨ n = 63 →
      ∀ x ∈ scheme ++ ':' :: '/' :: '/' :: (host ++ (portPartOf port ++ path)),
      ¬(x.toNat = n) := by
    intro n hn x hx he
    simp only [List.mem_append, List.mem_cons] at hx
    rcases hx with hx | hx | hx | hx | hx | hx | hx
    · exact schemeCh_notN hsAll n (by omega) x hx he
    · rw [hx, show (':' : Char).toNat = 58 from rfl] at he
      omega
    · rw [hx, show ('/' : Char).toNat = 47 from rfl] at he
      omega
    · rw [hx, show ('/' : Char).toNat = 47 from rfl] at he
      omega
    · exact hostCh_notN hhost n (by omega) x hx he
    · exact portCh_notN hppfacts n (by omega) x hx he
    · exact pathCh_notN hpathAll n (by omega) x hx he
  revert hquery
  cases query with
  | none =>
    intro hquery
    cases fragment with
    | none =>
      have hser : serializeUrl ⟨scheme, host, port, path, none, none⟩ =
          scheme ++ ':' :: '/' :: '/' :: (host ++ (portPartOf port ++ path)) := by
        simp [serializeUrl, queryPartOf, fragPartOf]
      rw [hser]
      refine parseUrl_of_breaks _ _ scheme host port path none none _
        (breakAt_not_mem ?_) (breakAt_not_mem ?_) hsHead hsAll hsLower hhost
        hppfacts prest hprest
      · intro hm
        exact hcore2 35 (by omega) _ hm rfl
      · intro hm
        exact hcore2 63 (by omega) _ hm rfl
    | some f =>
      have hser : serializeUrl ⟨scheme, host, port, path, none, some f⟩ =
          (scheme ++ ':' :: '/' :: '/' :: (host ++ (portPartOf port ++ path))) ++
            '#' :: f := by
        simp [serializeUrl, queryPartOf, fragPartOf]
      rw [hser]
      refine parseUrl_of_breaks _ _ scheme host port path none (some f) _
        (breakAt_append ?_) (breakAt_not_mem ?_) hsHead hsAll hsLower hhost
        hppfacts prest hprest
      · intro hm
        exact hcore2 35 (by omega) _ hm rfl
      · intro hm
        exact hcore2 63 (by omega) _ hm rfl
  | some qv =>
    intro hquery
    have hq35 : ('#' : Char) ∉
        (scheme ++ ':' :: '/' :: '/' :: (host ++ (portPartOf port ++ path))) ++
          '?' :: qv := by
      intro hm
      rcases List.mem_append.mp hm with hm2 | hm2
      · exact hcore2 35 (by omega) _ hm2 rfl
      · rcases List.mem_cons.mp hm2 with he | hm3
        · exact absurd (congrArg Char.toNat he) (by decide)
        · have := List.all_eq_true.mp hquery _ hm3
          simp at this
    cases fragment with
    | none =>
      have hser : serializeUrl ⟨scheme, host, port, path, some qv, none⟩ =
          (scheme ++ ':' :: '/' :: '/' :: (host ++ (portPartOf port ++ path))) ++
            '?' :: qv := by
        simp [serializeUrl, queryPartOf, fragPartOf]
      rw [hser]
      refine parseUrl_of_breaks _ _ scheme host port path (some qv) none _
        (breakAt_not_mem hq35) (breakAt_append ?_) hsHead hsAll hsLower hhost
        hppfacts prest hprest
      intro hm
      exact hcore2 63 (by omega) _ hm rfl
    | some f =>
      have hser : serializeUrl ⟨scheme, host, port, path, some qv, some f⟩ =
          ((scheme ++ ':' :: '/' :: '/' :: (host ++ (portPartOf port ++ path))) ++
            '?' :: qv) ++ '#' :: f := by
        simp [serializeUrl, queryPartOf, fragPartOf]
      rw [hser]
      refine parseUrl_of_breaks _ _ scheme host port path (some qv) (some f) _
        (breakAt_append hq35) (breakAt_append ?_) hsHead hsAll hsLower hhost
        hppfacts prest hprest
      intro hm
      exact hcore2 63 (by omega) _ hm rfl

theorem breakAt_fst_not_mem (sep : Char) (l : Chars) : sep ∉ (breakAt sep l).1 := by
  cases hbk : breakAt sep l with
  | mk a r =>
    cases r with
    | none => exact (breakAt_eq_none hbk).2
    | some b => exact (breakAt_eq_some hbk).2

theorem breakAt_fst_append (sep : Char) (l : Chars) :
    ∃ t, l = (breakAt sep l).1 ++ t := by
  cases hbk : breakAt sep l with
  | mk a r =>
    cases r with
    | none => exact ⟨[], by simp [(breakAt_eq_none hbk).1]⟩
    | some b => exact ⟨sep :: b, (breakAt_eq_some hbk).1⟩

theorem mem_takeWhile {p : Char → Bool} {l : Chars} {x : Char}
    (h : x ∈ l.takeWhile p) : p x = true ∧ x ∈ l := by
  induction l with
  | nil => simp [List.takeWhile] at h
  | cons c cs ih =>
    rw [List.takeWhile_cons] at h
    by_cases hc : p c = true
    · rw [if_pos hc] at h
      rcases List.mem_cons.mp h with rfl | h2
      · exact ⟨hc, List.mem_cons_self _ _⟩
      · obtain ⟨h3, h4⟩ := ih h2
        exact ⟨h3, List.mem_cons_of_mem _ h4⟩
    · rw [if_neg hc] at h
      exact absurd h (List.not_mem_nil x)

theorem drop_takeWhile_length (p : Char → Bool) (l : Chars) :
    l.drop (l.takeWhile p).length = l.dropWhile p := by
  induction l with
  | nil => rfl
  | cons c cs ih =>
    rw [List.takeWhile_cons, List.dropWhile_cons]
    by_cases hc : p c = true
    · rw [if_pos hc, if_pos hc, List.length_cons, List.drop_succ_cons, ih]
    · rw [if_neg hc, if_neg hc, List.length_nil, List.drop_zero]

theorem dropWhile_head_false {p : Char → Bool} {l : Chars} {x : Char} {xs : Chars}
    (h : l.dropWhile p = x :: xs) : p x = false := by
  induction l with
  | nil => simp [List.dropWhile] at h
  | cons c cs ih =>
    rw [List.dropWhile_cons] at h
    by_cases hc : p c = true
    · rw [if_pos hc] at h
      exact ih h
    · rw [if_neg hc] at h
      injection h with h1 h2
      subst h1
      exact Bool.eq_false_iff.mpr hc

theorem dropWhile_subset {p : Char → Bool} {l : Chars} {x : Char}
    (h : x ∈ l.dropWhile p) : x ∈ l := by
  induction l with
  | nil => simp [List.dropWhile] at h
  | cons c cs ih =>
    rw [List.dropWhile_cons] at h
    by_cases hc : p c = true
    · exact List.mem_cons_of_mem _ (ih (by rwa [if_pos hc] at h))
    · rw [if_neg hc] at h
      exact h


theorem char_eq_of_toNat_eq {a b : Char} (h : a.toNat = b.toNat) : a = b :=
  Char.eq_of_val_eq (UInt32.eq_of_toBitVec_eq (BitVec.eq_of_toNat_eq h))

theorem parseHostPort_canon {auth host : Chars} {port : Option Chars}
    (h : parseHostPort auth = some (host, port))
    (hno : ∀ x ∈ auth, ¬(x.toNat = 47) ∧ ¬(x.toNat = 63) ∧ ¬(x.toNat = 35)) :
    hostCanon host ∧ portCanon port := by
  unfold parseHostPort at h
  split at h
  · -- bracketed authority
    rename_i rest
    cases hbk : breakAt ']' rest with
    | mk inside r =>
      rw [hbk] at h
      cases r with
      | none => exact absurd h (by simp)
      | some after =>
        dsimp only at h
        split at h
        · rename_i hcond
          obtain ⟨hne, hall⟩ := hcond
          split at h
          · injection h with h2
            injection h2 with h3 h4
            subst h3
            subst h4
            exact ⟨Or.inl ⟨inside, rfl, hne, hall⟩, trivial⟩
          · rename_i d
            split at h
            · rename_i hd
              injection h with h2
              injection h2 with h3 h4
              subst h3
              subst h4
              exact ⟨Or.inl ⟨inside, rfl, hne, hall⟩, hd⟩
            · split at h
              · injection h with h2
                injection h2 with h3 h4
                subst h3
                subst h4
                exact ⟨Or.inl ⟨inside, rfl, hne, hall⟩, trivial⟩
              · exact absurd h (by simp)
          · exact absurd h (by simp)
        · exact absurd h (by simp)
  · -- plain authority
    dsimp only at h
    split at h
    · exact absurd h (by simp)
    · rename_i hcond
      rw [not_or] at hcond
      obtain ⟨hne, hnf⟩ := hcond
      have hplain : (auth.takeWhile (fun c => decide (c ≠ ':'))).all isPlainHostCh = true := by
        rw [List.all_eq_true]
        intro x hx
        obtain ⟨hpx, hmem⟩ := mem_takeWhile hx
        obtain ⟨h47, h63, h35⟩ := hno x hmem
        have hnfx : isForbiddenHostCh x = false := by
          by_contra hcon
          rw [Bool.not_eq_false] at hcon
          exact hnf (List.any_eq_true.mpr ⟨x, hx, hcon⟩)
        have h58 : ¬(x.toNat = 58) := by
          intro he
          have : x = ':' := char_eq_of_toNat_eq (by rw [he]; rfl)
          rw [this] at hpx
          exact absurd hpx (by decide)
        simp only [isPlainHostCh, hnfx, Bool.not_false, Bool.true_and,
          Bool.and_eq_true, Bool.not_eq_true', decide_eq_false_iff_not]
        exact ⟨⟨⟨h58, h47⟩, h63⟩, h35⟩
      split at h
      · injection h with h2
        injection h2 with h3 h4
        subst h3
        subst h4
        exact ⟨Or.inr ⟨hne, hplain⟩, trivial⟩
      · rename_i d
        split at h
        · injection h with h2
          injection h2 with h3 h4
          subst h3
          subst h4
          exact ⟨Or.inr ⟨hne, hplain⟩, trivial⟩
        · rename_i hdne2
          split at h
          · rename_i hdall
            injection h with h2
            injection h2 with h3 h4
            subst h3
            subst h4
            exact ⟨Or.inr ⟨hne, hplain⟩, hdne2, hdall⟩
          · exact absurd h (by simp)
      · exact absurd h (by simp)

theorem parseUrl_canon {u : Chars} {p : ParsedUrl} (h : parseUrl u = some p) :
    UrlCanon p := by
  unfold parseUrl at h
  dsimp only at h
  have hq1facts : ∀ x ∈ (breakAt '?' (breakAt '#' u).1).1,
      ¬(x.toNat = 63) ∧ ¬(x.toNat = 35) := by
    intro x hx
    constructor
    · intro he
      have hx63 : x = '?' := char_eq_of_toNat_eq (by rw [he]; rfl)
      rw [hx63] at hx
      exact breakAt_fst_not_mem '?' (breakAt '#' u).1 hx
    · intro he
      have hx35 : x = '#' := char_eq_of_toNat_eq (by rw [he]; rfl)
      obtain ⟨t, ht⟩ := breakAt_fst_append '?' (breakAt '#' u).1
      have hxmem : x ∈ (breakAt '#' u).1 := by
        rw [ht]
        exact List.mem_append_left t hx
      rw [hx35] at hxmem
      exact breakAt_fst_not_mem '#' u hxmem
  split at h
  · exact absurd h (by simp)
  · split at h
    · exact absurd h (by simp)
    · rename_i c0 tail heqscheme
      split at h
      · rename_i hcond
        obtain ⟨hc0, hcAll⟩ := hcond
        split at h
        · rename_i rest2 heqdrop
          have hrest2 : ∀ x ∈ rest2, x ∈ (breakAt '?' (breakAt '#' u).1).1 := by
            intro x hx
            have hx2 : x ∈ List.drop
                ((List.takeWhile (fun c => decide (c ≠ ':'))
                  (breakAt '?' (breakAt '#' u).1).1).length + 1)
                (breakAt '?' (breakAt '#' u).1).1 := by
              rw [heqdrop]
              exact List.mem_cons_of_mem _ (List.mem_cons_of_mem _ hx)
            exact List.drop_subset _ _ hx2
          split at h
          · rename_i hostv portv heqphp
            injection h with h2
            subst h2
            have hauth : ∀ x ∈ List.takeWhile (fun c => decide (c ≠ '/')) rest2,
                ¬(x.toNat = 47) ∧ ¬(x.toNat = 63) ∧ ¬(x.toNat = 35) := by
              intro x hx
              obtain ⟨hpx, hmem⟩ := mem_takeWhile hx
              obtain ⟨h63, h35⟩ := hq1facts x (hrest2 x hmem)
              refine ⟨?_, h63, h35⟩
              intro he
              have : x = '/' := char_eq_of_toNat_eq (by rw [he]; rfl)
              rw [this] at hpx
              exact absurd hpx (by decide)
            obtain ⟨hhostc, hportc⟩ := parseHostPort_canon heqphp hauth
            refine ⟨?_, ?_, map_toLower_toLower _, hhostc, hportc, ?_, ?_⟩
            · rw [heqscheme]
              dsimp only [List.map_cons, schemeHeadOk]
              exact isAsciiLetterCh_toLower c0 hc0
            · dsimp only
              rw [List.all_eq_true]
              intro x hx
              rw [List.mem_map] at hx
              obtain ⟨y, hy, rfl⟩ := hx
              exact isSchemeCh_toLower y (List.all_eq_true.mp hcAll y hy)
            · dsimp only
              by_cases hp0 : List.drop
                  (List.takeWhile (fun c => decide (c ≠ '/')) rest2).length rest2 = []
              · rw [if_pos hp0]
                exact ⟨⟨[], rfl⟩, by decide⟩
              · rw [if_neg hp0]
                constructor
                · rw [drop_takeWhile_length] at hp0 ⊢
                  cases hdw : rest2.dropWhile (fun c => decide (c ≠ '/')) with
                  | nil => exact absurd hdw hp0
                  | cons x0 xs =>
                    have := dropWhile_head_false hdw
                    simp only [decide_eq_false_iff_not, not_not] at this
                    exact ⟨xs, by rw [this]⟩
                · rw [List.all_eq_true]
                  intro x hx
                  have hx2 := List.drop_subset _ rest2 hx
                  obtain ⟨h63, h35⟩ := hq1facts x (hrest2 x hx2)
                  simp only [Bool.and_eq_true, Bool.not_eq_true',
                    decide_eq_false_iff_not]
                  exact ⟨h63, h35⟩
            · dsimp only
              cases hq2 : (breakAt '?' (breakAt '#' u).1).2 with
              | none => exact trivial
              | some qv =>
                rw [queryCanon]
                rw [List.all_eq_true]
                intro x hx
                have hsplit := breakAt_eq_some (show breakAt '?' (breakAt '#' u).1 =
                  ((breakAt '?' (breakAt '#' u).1).1, some qv) from Prod.ext rfl hq2)
                have hxf : x ∈ (breakAt '#' u).1 := by
                  rw [hsplit.1]
                  exact List.mem_append_right _ (List.mem_cons_of_mem _ hx)
                simp only [Bool.not_eq_true', decide_eq_false_iff_not]
                intro he
                have : x = '#' := char_eq_of_toNat_eq (by rw [he]; rfl)
                rw [this] at hxf
                exact breakAt_fst_not_mem '#' u hxf
          · exact absurd h (by simp)
        · exact absurd h (by simp)
      · exact absurd h (by simp)

/-! Membership facts for `intercalate` and `splitOn`, used to reason about the
query piece filter. -/

theorem intercalate_single (s l : Chars) : List.intercalate s [l] = l := by
  simp [List.intercalate]

theorem intercalate_cons2 (s l1 l2 : Chars) (tl : List Chars) :
    List.intercalate s (l1 :: l2 :: tl) = l1 ++ s ++ List.intercalate s (l2 :: tl) := by
  simp [List.intercalate, List.intersperse]

theorem mem_intercalate_imp {x : Char} {s : Chars} :
    ∀ {ls : List Chars}, x ∈ List.intercalate s ls → x ∈ s ∨ ∃ l ∈ ls, x ∈ l := by
  intro ls
  induction ls with
  | nil => intro h; simp [List.intercalate] at h
  | cons l tl ih =>
    intro h
    cases tl with
    | nil =>
      rw [intercalate_single] at h
      exact Or.inr ⟨l, List.mem_cons_self _ _, h⟩
    | cons l2 tl2 =>
      rw [intercalate_cons2] at h
      rcases List.mem_append.mp h with h2 | h2
      · rcases List.mem_append.mp h2 with h3 | h3
        · exact Or.inr ⟨l, List.mem_cons_self _ _, h3⟩
        · exact Or.inl h3
      · rcases ih h2 with h3 | ⟨l3, hl3, hx3⟩
        · exact Or.inl h3
        · exact Or.inr ⟨l3, List.mem_cons_of_mem _ hl3, hx3⟩

theorem mem_intercalate_of {x : Char} {s l : Chars} :
    ∀ {ls : List Chars}, l ∈ ls → x ∈ l → x ∈ List.intercalate s ls := by
  intro ls
  induction ls with
  | nil => intro h; exact absurd h (List.not_mem_nil l)
  | cons l1 tl ih =>
    intro hl hx
    cases tl with
    | nil =>
      rw [List.mem_singleton] at hl
      rw [intercalate_single]
      rw [← hl]
      exact hx
    | cons l2 tl2 =>
      rw [intercalate_cons2]
      rcases List.mem_cons.mp hl with rfl | hl2
      · exact List.mem_append_left _ (List.mem_append_left _ hx)
      · exact List.mem_append_right _ (ih hl2 hx)

theorem not_mem_splitOnP_piece {p : Char → Bool} :
    ∀ {xs l : Chars}, l ∈ xs.splitOnP p → ∀ x ∈ l, p x = false := by
  intro xs
  induction xs with
  | nil =>
    intro l hl x hx
    rw [List.splitOnP_nil] at hl
    rw [List.mem_singleton] at hl
    rw [hl] at hx
    exact absurd hx (List.not_mem_nil x)
  | cons c cs ih =>
    intro l hl x hx
    rw [List.splitOnP_cons] at hl
    by_cases hc : p c = true
    · rw [if_pos hc] at hl
      rcases List.mem_cons.mp hl with rfl | hl2
      · exact absurd hx (List.not_mem_nil x)
      · exact ih hl2 x hx
    · rw [if_neg hc] at hl
      cases hsp : cs.splitOnP p with
      | nil => exact absurd hsp (List.splitOnP_ne_nil p cs)
      | cons r0 rs =>
        rw [hsp] at hl
        dsimp only [List.modifyHead] at hl
        rcases List.mem_cons.mp hl with rfl | hl2
        · rcases List.mem_cons.mp hx with rfl | hx2
          · exact Bool.eq_false_iff.mpr hc
          · exact ih (by rw [hsp]; exact List.mem_cons_self _ _) x hx2
        · exact ih (by rw [hsp]; exact List.mem_cons_of_mem _ hl2) x hx

theorem not_mem_splitOn_piece {sep : Char} {xs l : Chars}
    (h : l ∈ xs.splitOn sep) : sep ∉ l := by
  intro hm
  have := not_mem_splitOnP_piece (p := fun c => c == sep) h sep hm
  simp at this

/-- The query filter leaves a query that is itself a fixpoint of the filter. -/
theorem deleteTrackingQuery_idem {q q1 : Chars}
    (h : deleteTrackingQuery q = some q1) : deleteTrackingQuery q1 = some q1 := by
  unfold deleteTrackingQuery at h ⊢
  by_cases hk : (q.splitOn '&').filter
      (fun pc => !(trackingParams.contains (pieceName pc))) = []
  · rw [if_pos hk] at h
    exact absurd h (by simp)
  · rw [if_neg hk] at h
    injection h with h1
    have hsep : ∀ l ∈ (q.splitOn '&').filter
        (fun pc => !(trackingParams.contains (pieceName pc))), '&' ∉ l := by
      intro l hl
      exact not_mem_splitOn_piece (List.mem_of_mem_filter hl)
    have hsplit : q1.splitOn '&' = (q.splitOn '&').filter
        (fun pc => !(trackingParams.contains (pieceName pc))) := by
      rw [← h1]
      exact List.splitOn_intercalate _ '&' hsep hk
    have hfilter : (q1.splitOn '&').filter
        (fun pc => !(trackingParams.contains (pieceName pc))) =
        (q.splitOn '&').filter
        (fun pc => !(trackingParams.contains (pieceName pc))) := by
      rw [hsplit]
      apply List.filter_eq_self.mpr
      intro a ha
      exact (List.mem_filter.mp ha).2
    rw [hfilter, if_neg hk, h1]

/-- The query filter preserves freedom from `#`. -/
theorem deleteTrackingQuery_no35 {q : Chars}
    (hq : q.all (fun c => !(c.toNat = 35)) = true) :
    queryCanon (deleteTrackingQuery q) := by
  unfold deleteTrackingQuery
  by_cases hk : (q.splitOn '&').filter
      (fun pc => !(trackingParams.contains (pieceName pc))) = []
  · rw [if_pos hk]
    exact trivial
  · rw [if_neg hk]
    rw [queryCanon]
    rw [List.all_eq_true]
    intro x hx
    rcases mem_intercalate_imp hx with hs | ⟨l, hl, hxl⟩
    · rw [List.mem_singleton] at hs
      rw [hs]
      decide
    · have hxq : x ∈ q := by
        have := mem_intercalate_of (s := ['&']) (List.mem_of_mem_filter hl) hxl
        rw [List.intercalate_splitOn] at this
        exact this
      exact List.all_eq_true.mp hq x hxq

/-! `Char.toLower` preserves the host character classes. -/

theorem isInsideCh_toLower (c : Char) (h : isInsideCh c = true) :
    isInsideCh c.toLower = true := by
  simp only [isInsideCh, isHexDigitCh, isDigitCh, Bool.or_eq_true, Bool.and_eq_true,
    decide_eq_true_eq] at h ⊢
  rw [toLower_toNat]
  by_cases h2 : 65 ≤ c.toNat ∧ c.toNat ≤ 90
  · rw [if_pos h2]; omega
  · rw [if_neg h2]; omega

theorem isPlainHostCh_toLower (c : Char) (h : isPlainHostCh c = true) :
    isPlainHostCh c.toLower = true := by
  simp only [isPlainHostCh, isForbiddenHostCh, Bool.and_eq_true, Bool.not_eq_true',
    Bool.or_eq_false_iff, decide_eq_false_iff_not] at h ⊢
  rw [toLower_toNat]
  by_cases h2 : 65 ≤ c.toNat ∧ c.toNat ≤ 90
  · rw [if_pos h2]; omega
  · rw [if_neg h2]; omega

theorem hostCanon_toLower {host : Chars} (h : hostCanon host) :
    hostCanon (host.map Char.toLower) := by
  rcases h with ⟨inside, heq, hne, hall⟩ | ⟨hne, hall⟩
  · left
    refine ⟨inside.map Char.toLower, ?_, ?_, ?_⟩
    · rw [heq]
      have h1 : Char.toLower '[' = '[' := by decide
      have h2 : Char.toLower ']' = ']' := by decide
      simp [List.map_append, h1, h2]
    · intro hm
      exact hne (List.map_eq_nil_iff.mp hm)
    · rw [List.all_eq_true]
      intro x hx
      obtain ⟨y, hy, rfl⟩ := List.mem_map.mp hx
      exact isInsideCh_toLower y (List.all_eq_true.mp hall y hy)
  · right
    refine ⟨?_, ?_⟩
    · intro hm
      exact hne (List.map_eq_nil_iff.mp hm)
    · rw [List.all_eq_true]
      intro x hx
      obtain ⟨y, hy, rfl⟩ := List.mem_map.mp hx
      exact isPlainHostCh_toLower y (List.all_eq_true.mp hall y hy)

/-! The fields of `normalizeParsed`, read off its definition. -/

theorem normalizeParsed_scheme (p : ParsedUrl) :
    (normalizeParsed p).scheme = p.scheme := rfl

theorem normalizeParsed_fragment (p : ParsedUrl) :
    (normalizeParsed p).fragment = p.fragment := rfl

theorem normalizeParsed_host (p : ParsedUrl) :
    (normalizeParsed p).host = p.host.map Char.toLower := rfl

theorem normalizeParsed_query (p : ParsedUrl) :
    (normalizeParsed p).query = match p.query with
      | none => none
      | some q => deleteTrackingQuery q := rfl

theorem normalizeParsed_port (p : ParsedUrl) :
    (normalizeParsed p).port = match p.port with
      | none => none
      | some d =>
        if (p.scheme = s2c "http" ∧ d = s2c "80") ∨
           (p.scheme = s2c "https" ∧ d = s2c "443") then none else some d := rfl

theorem normalizeParsed_path (p : ParsedUrl) :
    (normalizeParsed p).path =
      if p.path.getLast? = some '/' ∧ p.path.length > 1 then p.path.dropLast
      else p.path := rfl

theorem parsedUrl_eq {p q : ParsedUrl}
    (h1 : p.scheme = q.scheme) (h2 : p.host = q.host) (h3 : p.port = q.port)
    (h4 : p.path = q.path) (h5 : p.query = q.query) (h6 : p.fragment = q.fragment) :
    p = q := by
  cases p
  cases q
  simp_all

/-- Normalization preserves canonicity of a parsed URL. -/
theorem normalizeParsed_canon {p : ParsedUrl} (hc : UrlCanon p) :
    UrlCanon (normalizeParsed p) := by
  refine ⟨?_, ?_, ?_, ?_, ?_, ?_, ?_⟩
  · rw [normalizeParsed_scheme]; exact hc.schemeHead
  · rw [normalizeParsed_scheme]; exact hc.schemeAll
  · rw [normalizeParsed_scheme]; exact hc.schemeLower
  · rw [normalizeParsed_host]; exact hostCanon_toLower hc.host
  · rw [normalizeParsed_port]
    have hp := hc.port
    cases hport : p.port with
    | none => exact trivial
    | some d =>
      dsimp only
      split
      · exact trivial
      · rw [hport] at hp
        exact hp
  · rw [normalizeParsed_path]
    obtain ⟨⟨rest, hrest⟩, hall⟩ := hc.path
    by_cases hcond : p.path.getLast? = some '/' ∧ p.path.length > 1
    · rw [if_pos hcond]
      refine ⟨?_, ?_⟩
      · cases rest with
        | nil =>
          rw [hrest] at hcond
          exact absurd hcond.2 (by decide)
        | cons a as =>
          refine ⟨(a :: as).dropLast, ?_⟩
          rw [hrest]
          rfl
      · rw [List.all_eq_true]
        intro x hx
        exact List.all_eq_true.mp hall x ((List.dropLast_prefix p.path).subset hx)
    · rw [if_neg hcond]
      exact ⟨⟨rest, hrest⟩, hall⟩
  · rw [normalizeParsed_query]
    have hq := hc.query
    cases hquery : p.query with
    | none => exact trivial
    | some q =>
      dsimp only
      rw [hquery] at hq
      exact deleteTrackingQuery_no35 hq

/-- Normalization is a no-op the second time, provided its output path does
not still end in a removable slash. -/
theorem normalizeParsed_idem (p : ParsedUrl)
    (hpath : ¬((normalizeParsed p).path.getLast? = some '/' ∧
               (normalizeParsed p).path.length > 1)) :
    normalizeParsed (normalizeParsed p) = normalizeParsed p := by
  refine parsedUrl_eq ?_ ?_ ?_ ?_ ?_ ?_
  · rw [normalizeParsed_scheme]
  · rw [normalizeParsed_host, normalizeParsed_host]
    exact map_toLower_toLower p.host
  · rw [normalizeParsed_port, normalizeParsed_scheme, normalizeParsed_port]
    cases p.port with
    | none => rfl
    | some d =>
      dsimp only
      by_cases hcond : (p.scheme = s2c "http" ∧ d = s2c "80") ∨
          (p.scheme = s2c "https" ∧ d = s2c "443")
      · rw [if_pos hcond]
      · rw [if_neg hcond]
        dsimp only
        rw [if_neg hcond]
  · rw [normalizeParsed_path, if_neg hpath]
  · rw [normalizeParsed_query, normalizeParsed_query]
    cases p.query with
    | none => rfl
    | some q =>
      dsimp only
      cases hdel : deleteTrackingQuery q with
      | none => rfl
      | some q1 =>
        dsimp only
        exact deleteTrackingQuery_idem hdel
  · rw [normalizeParsed_fragment]

/-- If the input path does not end in a collapsible double slash, the
normalized path no longer ends in a removable trailing slash. -/
theorem normalized_path_no_trailing {p : ParsedUrl}
    (h : ((s2c "//").isSuffixOf p.path && decide (p.path.length > 2)) = false) :
    ¬((normalizeParsed p).path.getLast? = some '/' ∧
      (normalizeParsed p).path.length > 1) := by
  rw [normalizeParsed_path]
  by_cases hcond : p.path.getLast? = some '/' ∧ p.path.length > 1
  · rw [if_pos hcond]
    rintro ⟨hlast, hlen⟩
    have h1 : p.path.dropLast ++ ['/'] = p.path :=
      List.dropLast_append_getLast? '/' hcond.1
    have h2 : p.path.dropLast.dropLast ++ ['/'] = p.path.dropLast :=
      List.dropLast_append_getLast? '/' hlast
    have hsuf : (s2c "//").isSuffixOf p.path = true := by
      apply List.isSuffixOf_iff_suffix.mpr
      refine ⟨p.path.dropLast.dropLast, ?_⟩
      have hs : s2c "//" = ['/'] ++ ['/'] := rfl
      rw [hs, ← List.append_assoc, h2, h1]
    have hlen3 : p.path.length > 2 := by
      have := List.length_dropLast p.path
      omega
    rw [hsuf, decide_eq_true hlen3] at h
    exact absurd h (by decide)
  · rw [if_neg hcond]
    exact hcond

/-- Idempotence at the character level, away from the excluded inputs. -/
theorem normalizeChars_idem (u : Chars)
    (h : collapsibleDoubleSlash (String.mk u) = false) :
    normalizeChars (normalizeChars u) = normalizeChars u := by
  unfold collapsibleDoubleSlash at h
  rw [show (String.mk u).data = u from rfl] at h
  cases hp : parseUrl u with
  | none =>
    unfold normalizeChars
    rw [hp]
    dsimp only
    rw [hp]
  | some p =>
    rw [hp] at h
    dsimp only at h
    have hcanon := parseUrl_canon hp
    have hqcanon := normalizeParsed_canon hcanon
    have hre := parseUrl_serializeUrl (normalizeParsed p) hqcanon
    unfold normalizeChars
    rw [hp]
    dsimp only
    rw [hre]
    dsimp only
    rw [normalizeParsed_idem p (normalized_path_no_trailing h)]

/-- C7 (amended): the normalizer is idempotent on every URL except those whose
parsed path still ends in a slash after one trailing-slash strip, i.e. the
path ends in `//` and is longer than `//`; on the excluded inputs a second
normalization strips one more slash. -/
theorem normalizeUrl_idempotent (u : String) (h : collapsibleDoubleSlash u = false) :
    normalizeUrl (normalizeUrl u) = normalizeUrl u := by
  obtain ⟨d⟩ := u
  unfold normalizeUrl
  congr 1
  rw [show (String.mk (normalizeChars (String.mk d).data)).data =
        normalizeChars (String.mk d).data from rfl]
  rw [show (String.mk d).data = d from rfl]
  exact normalizeChars_idem d h

theorem normalizeUrl_idempotent_witness :
    collapsibleDoubleSlash "https://Example.COM/path?utm_source=x&a=1" = false ∧
    normalizeUrl (normalizeUrl "https://Example.COM/path?utm_source=x&a=1") =
      normalizeUrl "https://Example.COM/path?utm_source=x&a=1" :=
  ⟨by decide, normalizeUrl_idempotent _ (by decide)⟩
